import Mathlib

/-!
# xv6 copy-on-write page allocator (`kernel/kalloc.c`)

A shallow embedding of the reference-counted physical page allocator:
the reference-count table, the intrusive free list kept in the frames'
own first eight bytes, and the four operations `kinit`, `kalloc`,
`kfree` and `increment_page_ref`.

The embedding is sequential: `initlock`, `acquire` and `release` on
`kmem.lock` have no effect on the data and are left out.
-/

namespace Kalloc

/-! ## Constants and machine arithmetic -/

/-- Modelled from the spec: `riscv.h` is not part of the sources; the page
size is "fixed at 4096 bytes". -/
def PGSIZE : Nat := 4096

/-- Modelled from the spec: the `PGROUNDUP` macro of `riscv.h` is not part of
the sources; it yields "the first page-aligned address ≥" its argument. -/
def PGROUNDUP (sz : Nat) : Nat := (sz + PGSIZE - 1) / PGSIZE * PGSIZE

/-- Conversion of an unsigned 64-bit value to a C `int` (32-bit two's
complement), as performed by `page_number = (uint64)pa/PGSIZE`. -/
def toInt32 (n : Nat) : Int :=
  if n % 2 ^ 32 < 2 ^ 31 then ((n % 2 ^ 32 : Nat) : Int)
  else ((n % 2 ^ 32 : Nat) : Int) - 2 ^ 32

/-- The externally supplied boundary addresses: `end` (first address after the
kernel image, from `kernel.ld`) and `PHYSTOP` (from `memlayout.h`).  Neither
file is part of the sources, so both are parameters.  `end` is the address of
a C object and therefore not the null pointer, and the frame indices below
`PHYSTOP / PGSIZE` are the values an `int` index can take. -/
structure Layout where
  kend : Nat
  PHYSTOP : Nat
  kend_pos : 0 < kend
  index_fits : PHYSTOP / PGSIZE ≤ 2 ^ 31

/-- Outcome of an operation that does not return normally: `panic` is the
kernel's fatal path; `outOfBounds` marks an access to `ref_count` outside its
declared length `PHYSTOP/PGSIZE`, and `overflow` an increment of a count beyond
`INT_MAX` (both undefined behaviour in C). -/
inductive Fault where
  | panic
  | outOfBounds
  | overflow
  deriving DecidableEq, Repr

/-- The largest value of a C `int` (32 bits). -/
def INT_MAX : Int := 2 ^ 31 - 1

/-! ## State -/

/-- The allocator state: `ref_count` is the table `int ref_count[PHYSTOP/PGSIZE]`
(entries at or beyond the declared length are never read or written),
`freelist` is `kmem.freelist` (0 is the null pointer), and `mem` is byte
addressed physical memory.  Table entries are integers; the one place where a
count can leave the range of `int`, the `+= 1` of `increment_page_ref`, is
guarded by `Fault.overflow`. -/
structure Kmem where
  ref_count : Nat → Int
  freelist : Nat
  mem : Nat → Nat

/-- Whether the `int` index `i` lies inside `ref_count[PHYSTOP/PGSIZE]`. -/
def inTable (L : Layout) (i : Int) : Prop :=
  0 ≤ i ∧ i < ((L.PHYSTOP / PGSIZE : Nat) : Int)

instance (L : Layout) (i : Int) : Decidable (inTable L i) := by
  unfold inTable; exact inferInstance

/-- The library routine `memset(dst, c, n)`: the `n` bytes from `dst` on are
set to `c` (as an `unsigned char`). -/
def memset (m : Nat → Nat) (dst c n : Nat) : Nat → Nat :=
  fun x => if dst ≤ x ∧ x < dst + n then c % 256 else m x

/-- Read of a 64-bit little-endian pointer (`r->next`) at address `a`. -/
def load64 (m : Nat → Nat) (a : Nat) : Nat :=
  m a % 256 + 256 * (m (a + 1) % 256 + 256 * (m (a + 2) % 256 + 256 * (m (a + 3) % 256
    + 256 * (m (a + 4) % 256 + 256 * (m (a + 5) % 256 + 256 * (m (a + 6) % 256
    + 256 * (m (a + 7) % 256)))))))

/-- Write of a 64-bit little-endian pointer (`r->next = v`) at address `a`. -/
def store64 (m : Nat → Nat) (a v : Nat) : Nat → Nat :=
  fun x => if a ≤ x ∧ x < a + 8 then v / 256 ^ (x - a) % 256 else m x

/-! ## Operations -/

/-- The function `kfree(void *pa)`. -/
def kfree (L : Layout) (st : Kmem) (pa : Nat) : Except Fault Kmem :=
  if pa % PGSIZE ≠ 0 ∨ pa < L.kend ∨ pa ≥ L.PHYSTOP then .error .panic
  else
    let page_number := toInt32 (pa / PGSIZE)
    if ¬ inTable L page_number then .error .outOfBounds
    else if st.ref_count page_number.toNat < 1 then .error .panic
    else
      let rc := Function.update st.ref_count page_number.toNat
        (st.ref_count page_number.toNat - 1)
      let current_ref_count := rc page_number.toNat
      if current_ref_count > 0 then .ok { st with ref_count := rc }
      else
        let filled := memset st.mem pa 1 PGSIZE
        .ok { ref_count := rc, freelist := pa, mem := store64 filled pa st.freelist }

/-- The function `kalloc(void)`: the returned pointer (0 when no memory is
available) together with the new state. -/
def kalloc (L : Layout) (st : Kmem) : Except Fault (Nat × Kmem) :=
  let r := st.freelist
  if r ≠ 0 then
    let page_number := toInt32 (r / PGSIZE)
    if ¬ inTable L page_number then .error .outOfBounds
    else if st.ref_count page_number.toNat ≠ 0 then .error .panic
    else
      .ok (r, { ref_count := Function.update st.ref_count page_number.toNat 1,
                freelist := load64 st.mem r,
                mem := memset st.mem r 5 PGSIZE })
  else .ok (r, st)

/-- The function `increment_page_ref(uint64 pa)`. -/
def increment_page_ref (L : Layout) (st : Kmem) (pa : Nat) : Except Fault Kmem :=
  let page_number := toInt32 (pa / PGSIZE)
  if pa > L.PHYSTOP then .error .panic
  else if ¬ inTable L page_number then .error .outOfBounds
  else if st.ref_count page_number.toNat < 1 then .error .panic
  else if st.ref_count page_number.toNat + 1 > INT_MAX then .error .overflow
  else
    let rc := Function.update st.ref_count page_number.toNat
      (st.ref_count page_number.toNat + 1)
    .ok { st with ref_count := rc }

/-- The loop of `freerange`, entered with the current `p`. -/
def freerangeLoop (L : Layout) (pa_end : Nat) (p : Nat) (st : Kmem) : Except Fault Kmem :=
  if p + PGSIZE ≤ pa_end then
    if p / PGSIZE < L.PHYSTOP / PGSIZE then
      let seeded : Kmem := { st with ref_count := Function.update st.ref_count (p / PGSIZE) 1 }
      match kfree L seeded p with
      | .error e => .error e
      | .ok st' => freerangeLoop L pa_end (p + PGSIZE) st'
    else .error .outOfBounds
  else .ok st
termination_by pa_end - p
decreasing_by simp only [PGSIZE] at *; omega

/-- The function `freerange(void *pa_start, void *pa_end)`. -/
def freerange (L : Layout) (st : Kmem) (pa_start pa_end : Nat) : Except Fault Kmem :=
  freerangeLoop L pa_end (PGROUNDUP pa_start) st

/-- The function `kinit()`. -/
def kinit (L : Layout) (st : Kmem) : Except Fault Kmem :=
  freerange L st L.kend L.PHYSTOP

/-! ## Specification vocabulary -/

/-- The entry `ref_count[pa / PGSIZE]` of the declared table, when it exists. -/
def countOf (L : Layout) (st : Kmem) (pa : Nat) : Option Int :=
  if pa / PGSIZE < L.PHYSTOP / PGSIZE then some (st.ref_count (pa / PGSIZE)) else none

/-- The address `pa` is page-aligned and lies in `[end, PHYSTOP)`. -/
def Manageable (L : Layout) (pa : Nat) : Prop :=
  pa % PGSIZE = 0 ∧ L.kend ≤ pa ∧ pa < L.PHYSTOP

instance (L : Layout) (pa : Nat) : Decidable (Manageable L pa) := by
  unfold Manageable; exact inferInstance

/-- The frame `p` is page-aligned with `PGROUNDUP(end) ≤ p` and `p + PGSIZE ≤ PHYSTOP`. -/
def InRange (L : Layout) (p : Nat) : Prop :=
  p % PGSIZE = 0 ∧ PGROUNDUP L.kend ≤ p ∧ p + PGSIZE ≤ L.PHYSTOP

instance (L : Layout) (p : Nat) : Decidable (InRange L p) := by
  unfold InRange; exact inferInstance

/-- The free list starting at head pointer `h` in memory `m` is the sequence `l`
of frames: every node is a non-null page-aligned 64-bit address whose first eight
bytes hold the address of the next node, the last one holding the null
pointer. -/
def FreeList (m : Nat → Nat) : Nat → List Nat → Prop
  | h, [] => h = 0
  | h, x :: xs => h = x ∧ x ≠ 0 ∧ x < 2 ^ 64 ∧ x % PGSIZE = 0 ∧ FreeList m (load64 m x) xs

/-- Whether a given sequence is the free list can be checked by walking it. -/
instance FreeList.decidable (m : Nat → Nat) : ∀ (h : Nat) (l : List Nat), Decidable (FreeList m h l)
  | h, [] => inferInstanceAs (Decidable (h = 0))
  | h, x :: xs =>
    have : Decidable (FreeList m (load64 m x) xs) := FreeList.decidable m (load64 m x) xs
    inferInstanceAs (Decidable (h = x ∧ x ≠ 0 ∧ x < 2 ^ 64 ∧ x % PGSIZE = 0 ∧
      FreeList m (load64 m x) xs))

/-- The boot state: zero-initialised globals, arbitrary memory contents. -/
def boot (m : Nat → Nat) : Kmem :=
  { ref_count := fun _ => 0, freelist := 0, mem := m }

/-! ## The allocator invariant -/

/-- The correspondence between free list and reference counts: the free list
is the sequence `l` of in-range frames, an in-range frame is on it exactly when
its count is 0, and no count is negative. -/
def Inv (L : Layout) (s : Kmem) (l : List Nat) : Prop :=
  FreeList s.mem s.freelist l ∧ (∀ x ∈ l, InRange L x) ∧
    (∀ p, InRange L p → (p ∈ l ↔ s.ref_count (p / PGSIZE) = 0)) ∧
    (∀ i, 0 ≤ s.ref_count i)

/-! ## Initialisation -/

/-- The `n` consecutive frames starting at `p`. -/
def framesFrom (p n : Nat) : List Nat :=
  (List.range n).map (fun i => p + PGSIZE * i)

/-- The number of whole frames between `PGROUNDUP(end)` and `PHYSTOP`. -/
def frameCount (L : Layout) : Nat := (L.PHYSTOP - PGROUNDUP L.kend) / PGSIZE

/-- The frames `PGROUNDUP(end) + PGSIZE * i` that fit below `PHYSTOP`, in
ascending order. -/
def frames (L : Layout) : List Nat := framesFrom (PGROUNDUP L.kend) (frameCount L)

/-! ## Call sequences -/

/-- A call of one of the three operations available after `kinit`. -/
inductive Call where
  | kalloc
  | kfree (pa : Nat)
  | increment_page_ref (pa : Nat)
  deriving DecidableEq, Repr

/-- One call from a single context: the returned value (0 for the `void`
operations) and the new state. -/
def step (L : Layout) (s : Kmem) : Call → Except Fault (Nat × Kmem)
  | .kalloc => kalloc L s
  | .kfree pa =>
    match kfree L s pa with
    | .ok s' => .ok (0, s')
    | .error e => .error e
  | .increment_page_ref pa =>
    match increment_page_ref L s pa with
    | .ok s' => .ok (0, s')
    | .error e => .error e

/-- A sequence of calls, each of which returns normally; the final state. -/
def run (L : Layout) (s : Kmem) : List Call → Except Fault Kmem
  | [] => .ok s
  | c :: cs =>
    match step L s c with
    | .ok (_, s') => run L s' cs
    | .error e => .error e

/-- The first `n` consecutive calls of `kalloc`: the returned addresses in
order and the final state. -/
def kallocN (L : Layout) : Nat → Kmem → Except Fault (List Nat × Kmem)
  | 0, s => .ok ([], s)
  | n + 1, s =>
    match kalloc L s with
    | .error e => .error e
    | .ok (r, s') =>
      match kallocN L n s' with
      | .error e => .error e
      | .ok (rs, s'') => .ok (r :: rs, s'')

/-! ## Example configurations -/

/-- A small layout: the kernel image ends at 4097, so the pool holds the three
frames 8192, 12288 and 16384. -/
def exLayout : Layout :=
  { kend := 4097, PHYSTOP := 20480, kend_pos := by decide, index_fits := by decide }

/-- Memory holding zero everywhere. -/
def zeroMem : Nat → Nat := fun _ => 0

/-- Frame 8192 is owned with count `k`; the free list is empty. -/
def exOwned (k : Int) : Kmem :=
  { ref_count := fun i => if i = 2 then k else 0, freelist := 0, mem := zeroMem }

/-- Frame 8192 is the only frame on the free list, with count 0. -/
def exFree : Kmem :=
  { ref_count := fun _ => 0, freelist := 8192, mem := zeroMem }

/-- A corrupted state: frame 8192 is the only frame on the free list although
its count is 1. -/
def exCorrupt : Kmem :=
  { ref_count := fun i => if i = 2 then 1 else 0, freelist := 8192, mem := zeroMem }

/-- A state whose free-list head is the address `PHYSTOP` itself: the frame has
no entry in the table. -/
def exBeyond : Kmem :=
  { ref_count := fun _ => 0, freelist := 20480, mem := zeroMem }

/-- A state whose free-list head is `2 ^ 44`, far beyond `PHYSTOP`, while the
entry of frame 0 is 1. -/
def exWrapped : Kmem :=
  { ref_count := fun i => if i = 0 then 1 else 0, freelist := 2 ^ 44, mem := zeroMem }

/-- A state in which the entry of frame 0, inside the kernel image, is 1. -/
def exKernel : Kmem :=
  { ref_count := fun i => if i = 0 then 1 else 0, freelist := 0, mem := zeroMem }

/-! ## Allocate/release cycles -/

/-- A call that is `kalloc` or `kfree`, not `increment_page_ref`. -/
def Call.allocOrFree : Call → Prop
  | .kalloc => True
  | .kfree _ => True
  | .increment_page_ref _ => False

/-- One cycle: `kalloc` immediately followed by `kfree` of the returned frame. -/
def cycle (L : Layout) (s : Kmem) : Except Fault Kmem :=
  match kalloc L s with
  | .error e => .error e
  | .ok (r, s') => kfree L s' r

/-- The first `n` consecutive allocate/release cycles. -/
def cycles (L : Layout) : Nat → Kmem → Except Fault Kmem
  | 0, s => .ok s
  | n + 1, s =>
    match cycle L s with
    | .error e => .error e
    | .ok s' => cycles L n s'

/-- The sum of the entries of `ref_count[PHYSTOP/PGSIZE]`. -/
def countSum (L : Layout) (s : Kmem) : Int :=
  ((List.range (L.PHYSTOP / PGSIZE)).map s.ref_count).sum

/-! ## Basic facts on the machine arithmetic -/

theorem toInt32_of_lt {n : Nat} (h : n < 2 ^ 31) : toInt32 n = (n : Int) := by
  unfold toInt32
  have h1 : n % 2 ^ 32 = n := Nat.mod_eq_of_lt (by omega)
  rw [h1, if_pos h]

theorem toInt32_index (L : Layout) {n : Nat} (h : n < L.PHYSTOP / PGSIZE) :
    toInt32 n = (n : Int) ∧ inTable L (toInt32 n) := by
  have hf := L.index_fits
  have h1 : toInt32 n = (n : Int) := toInt32_of_lt (by omega)
  refine ⟨h1, ?_⟩
  rw [h1]; unfold inTable
  constructor
  · exact Int.ofNat_nonneg n
  · exact_mod_cast h

theorem toInt32_inTable (L : Layout) {n : Nat} (hn : n ≤ L.PHYSTOP / PGSIZE)
    (h : inTable L (toInt32 n)) : n < L.PHYSTOP / PGSIZE := by
  have hf := L.index_fits
  by_cases hlt : n < 2 ^ 31
  · rw [toInt32_of_lt hlt] at h
    unfold inTable at h
    exact_mod_cast h.2
  · exfalso
    have hn2 : n = 2 ^ 31 := by omega
    subst hn2
    unfold inTable toInt32 at h
    norm_num at h

/-! ## Normal forms of the operations -/

theorem kfree_of_index (L : Layout) (st : Kmem) (pa : Nat) (hm : Manageable L pa)
    (hi : pa / PGSIZE < L.PHYSTOP / PGSIZE) :
    kfree L st pa =
      if st.ref_count (pa / PGSIZE) < 1 then .error .panic
      else if st.ref_count (pa / PGSIZE) - 1 > 0 then
        .ok { st with ref_count :=
                Function.update st.ref_count (pa / PGSIZE) (st.ref_count (pa / PGSIZE) - 1) }
      else
        .ok { ref_count :=
                Function.update st.ref_count (pa / PGSIZE) (st.ref_count (pa / PGSIZE) - 1),
              freelist := pa,
              mem := store64 (memset st.mem pa 1 PGSIZE) pa st.freelist } := by
  obtain ⟨ha, hk, hp⟩ := hm
  obtain ⟨h1, h2⟩ := toInt32_index L hi
  have hc : ¬ (pa % PGSIZE ≠ 0 ∨ pa < L.kend ∨ pa ≥ L.PHYSTOP) := by
    intro h; rcases h with h | h | h
    · exact h ha
    · omega
    · omega
  unfold kfree
  rw [if_neg hc]
  simp only [h1, Int.toNat_ofNat, Function.update_same]
  rw [← h1, if_neg (not_not.mpr h2)]

theorem kfree_ok_inv (L : Layout) (st st' : Kmem) (pa : Nat) (h : kfree L st pa = .ok st') :
    Manageable L pa ∧ pa / PGSIZE < L.PHYSTOP / PGSIZE ∧ 1 ≤ st.ref_count (pa / PGSIZE) := by
  unfold kfree at h
  split at h
  · exact absurd h (by simp)
  · rename_i hc
    have hm : Manageable L pa := by
      unfold Manageable
      refine ⟨?_, ?_, ?_⟩
      · by_contra h0; exact hc (Or.inl h0)
      · by_contra h0; exact hc (Or.inr (Or.inl (by omega)))
      · by_contra h0; exact hc (Or.inr (Or.inr (by omega)))
    simp only at h
    split at h
    · exact absurd h (by simp)
    · rename_i ht
      have ht := not_not.mp ht
      have hle : pa / PGSIZE ≤ L.PHYSTOP / PGSIZE := Nat.div_le_div_right (le_of_lt hm.2.2)
      have hi := toInt32_inTable L hle ht
      obtain ⟨h1, -⟩ := toInt32_index L hi
      rw [h1, Int.toNat_ofNat] at h
      split at h
      · exact absurd h (by simp)
      · rename_i hlt
        exact ⟨hm, hi, by omega⟩

theorem kalloc_of_index (L : Layout) (st : Kmem) (hr : st.freelist ≠ 0)
    (hi : st.freelist / PGSIZE < L.PHYSTOP / PGSIZE) :
    kalloc L st =
      if st.ref_count (st.freelist / PGSIZE) ≠ 0 then .error .panic
      else .ok (st.freelist,
        { ref_count := Function.update st.ref_count (st.freelist / PGSIZE) 1,
          freelist := load64 st.mem st.freelist,
          mem := memset st.mem st.freelist 5 PGSIZE }) := by
  obtain ⟨h1, h2⟩ := toInt32_index L hi
  unfold kalloc
  simp only
  rw [if_pos hr, if_neg (not_not.mpr h2), h1, Int.toNat_ofNat]

theorem kalloc_empty (L : Layout) (st : Kmem) (hr : st.freelist = 0) :
    kalloc L st = .ok (0, st) := by
  unfold kalloc
  simp [hr]

theorem increment_page_ref_of_index (L : Layout) (st : Kmem) (pa : Nat)
    (hp : pa ≤ L.PHYSTOP) (hi : pa / PGSIZE < L.PHYSTOP / PGSIZE) :
    increment_page_ref L st pa =
      if st.ref_count (pa / PGSIZE) < 1 then .error .panic
      else if st.ref_count (pa / PGSIZE) + 1 > INT_MAX then .error .overflow
      else .ok { st with ref_count :=
                  Function.update st.ref_count (pa / PGSIZE) (st.ref_count (pa / PGSIZE) + 1) } := by
  obtain ⟨h1, h2⟩ := toInt32_index L hi
  unfold increment_page_ref
  simp only
  rw [if_neg (by omega), if_neg (not_not.mpr h2), h1, Int.toNat_ofNat]

theorem increment_page_ref_ok_inv (L : Layout) (st st' : Kmem) (pa : Nat)
    (h : increment_page_ref L st pa = .ok st') :
    pa ≤ L.PHYSTOP ∧ pa / PGSIZE < L.PHYSTOP / PGSIZE ∧ 1 ≤ st.ref_count (pa / PGSIZE) ∧
      st.ref_count (pa / PGSIZE) + 1 ≤ INT_MAX := by
  unfold increment_page_ref at h
  simp only at h
  split at h
  · exact absurd h (by simp)
  · rename_i hp
    split at h
    · exact absurd h (by simp)
    · rename_i ht
      have ht := not_not.mp ht
      have hle : pa / PGSIZE ≤ L.PHYSTOP / PGSIZE := Nat.div_le_div_right (by omega)
      have hi := toInt32_inTable L hle ht
      obtain ⟨h1, -⟩ := toInt32_index L hi
      rw [h1, Int.toNat_ofNat] at h
      split at h
      · exact absurd h (by simp)
      · split at h
        · exact absurd h (by simp)
        · exact ⟨by omega, hi, by omega, by omega⟩

/-! ## Memory: pointers stored in frames -/

theorem load64_store64_same (m : Nat → Nat) (a v : Nat) :
    load64 (store64 m a v) a = v % 2 ^ 64 := by
  have e1 : a + 1 - a = 1 := by omega
  have e2 : a + 2 - a = 2 := by omega
  have e3 : a + 3 - a = 3 := by omega
  have e4 : a + 4 - a = 4 := by omega
  have e5 : a + 5 - a = 5 := by omega
  have e6 : a + 6 - a = 6 := by omega
  have e7 : a + 7 - a = 7 := by omega
  unfold load64 store64
  simp only [le_refl, Nat.le_add_right, Nat.lt_add_of_pos_right, Nat.add_lt_add_iff_left,
    Nat.sub_self, e1, e2, e3, e4, e5, e6, e7, and_self, if_true, Nat.reduceLT,
    Nat.reducePow, Nat.zero_lt_succ, pow_zero, Nat.div_one, Nat.mod_mod]
  omega

theorem load64_store64_other (m : Nat → Nat) (a v x : Nat) (h : x + 8 ≤ a ∨ a + 8 ≤ x) :
    load64 (store64 m a v) x = load64 m x := by
  have hb : ∀ k, k < 8 → store64 m a v (x + k) = m (x + k) := by
    intro k hk
    unfold store64
    rw [if_neg (by omega)]
  unfold load64
  rw [hb 1 (by omega), hb 2 (by omega), hb 3 (by omega), hb 4 (by omega), hb 5 (by omega),
    hb 6 (by omega), hb 7 (by omega)]
  have h0 := hb 0 (by omega)
  rw [Nat.add_zero] at h0
  rw [h0]

theorem load64_memset_other (m : Nat → Nat) (dst c n x : Nat) (h : x + 8 ≤ dst ∨ dst + n ≤ x) :
    load64 (memset m dst c n) x = load64 m x := by
  have hb : ∀ k, k < 8 → memset m dst c n (x + k) = m (x + k) := by
    intro k hk
    unfold memset
    rw [if_neg (by omega)]
  unfold load64
  rw [hb 1 (by omega), hb 2 (by omega), hb 3 (by omega), hb 4 (by omega), hb 5 (by omega),
    hb 6 (by omega), hb 7 (by omega)]
  have h0 := hb 0 (by omega)
  rw [Nat.add_zero] at h0
  rw [h0]

theorem load64_lt (m : Nat → Nat) (a : Nat) : load64 m a < 2 ^ 64 := by
  unfold load64
  omega

/-! ## The free list as a sequence -/

theorem FreeList.congr {m m' : Nat → Nat} :
    ∀ {l : List Nat} {h : Nat}, (∀ x ∈ l, load64 m' x = load64 m x) →
      FreeList m h l → FreeList m' h l
  | [], _, _, hl => hl
  | x :: xs, h, hx, hl => by
    obtain ⟨h1, h2, h3, h4, h5⟩ := hl
    refine ⟨h1, h2, h3, h4, ?_⟩
    rw [hx x (List.mem_cons_self x xs)]
    exact FreeList.congr (fun y hy => hx y (List.mem_cons_of_mem x hy)) h5

theorem FreeList.unique {m : Nat → Nat} :
    ∀ {l1 l2 : List Nat} {h : Nat}, FreeList m h l1 → FreeList m h l2 → l1 = l2
  | [], [], _, _, _ => rfl
  | [], y :: ys, h, h1, h2 => by
    have e1 : h = 0 := h1
    have e2 : h = y := h2.1
    exact absurd (e2.symm.trans e1) h2.2.1
  | x :: xs, [], h, h1, h2 => by
    have e1 : h = 0 := h2
    have e2 : h = x := h1.1
    exact absurd (e2.symm.trans e1) h1.2.1
  | x :: xs, y :: ys, h, h1, h2 => by
    have e : x = y := h1.1.symm.trans h2.1
    subst e
    rw [FreeList.unique h1.2.2.2.2 h2.2.2.2.2]

theorem FreeList.mem_props {m : Nat → Nat} :
    ∀ {l : List Nat} {h : Nat}, FreeList m h l →
      ∀ x ∈ l, x ≠ 0 ∧ x < 2 ^ 64 ∧ x % PGSIZE = 0
  | [], _, _, x, hx => absurd hx (List.not_mem_nil x)
  | y :: ys, _, hl, x, hx => by
    rcases List.mem_cons.mp hx with e | hmem
    · subst e; exact ⟨hl.2.1, hl.2.2.1, hl.2.2.2.1⟩
    · exact FreeList.mem_props hl.2.2.2.2 x hmem

theorem FreeList.head_lt {m : Nat → Nat} {l : List Nat} {h : Nat} (hl : FreeList m h l) :
    h < 2 ^ 64 := by
  cases l with
  | nil => have e : h = 0 := hl; omega
  | cons x xs => have e : h = x := hl.1; have := hl.2.2.1; omega

theorem FreeList.suffix {m : Nat → Nat} :
    ∀ {a : List Nat} {h x : Nat} {b : List Nat}, FreeList m h (a ++ x :: b) →
      FreeList m x (x :: b)
  | [], _, _, _, hl => ⟨rfl, hl.2⟩
  | _ :: a, _, _, _, hl => FreeList.suffix (a := a) hl.2.2.2.2

theorem FreeList.head_not_mem {m : Nat → Nat} {l : List Nat} {h x : Nat}
    (hl : FreeList m h (x :: l)) : x ∉ l := by
  intro hx
  obtain ⟨a, b, e⟩ := List.append_of_mem hx
  have hx0 : FreeList m x (x :: l) := ⟨rfl, hl.2⟩
  have h1 : FreeList m (load64 m x) (a ++ x :: b) := e ▸ hl.2.2.2.2
  have h2 : FreeList m x (x :: b) := FreeList.suffix h1
  have h3 : x :: l = x :: b := FreeList.unique hx0 h2
  have h4 : l.length = b.length := by rw [List.cons.inj h3 |>.2]
  rw [e] at h4
  simp at h4
  omega

theorem FreeList.nodup {m : Nat → Nat} :
    ∀ {l : List Nat} {h : Nat}, FreeList m h l → l.Nodup
  | [], _, _ => List.nodup_nil
  | _ :: _, _, hl =>
    List.nodup_cons.mpr ⟨FreeList.head_not_mem hl, FreeList.nodup hl.2.2.2.2⟩

/-- Two distinct page-aligned addresses are a whole page apart. -/
theorem aligned_apart {x r : Nat} (hx : x % PGSIZE = 0) (hr : r % PGSIZE = 0) (hne : x ≠ r) :
    x + 8 ≤ r ∨ r + PGSIZE ≤ x := by
  unfold PGSIZE at *
  omega

theorem aligned_div_ne {x r : Nat} (hx : x % PGSIZE = 0) (hr : r % PGSIZE = 0) (hne : x ≠ r) :
    x / PGSIZE ≠ r / PGSIZE := by
  unfold PGSIZE at *
  omega

/-! ## Preservation of the invariant -/

theorem InRange.index {L : Layout} {p : Nat} (h : InRange L p) :
    p / PGSIZE < L.PHYSTOP / PGSIZE := by
  unfold InRange PGSIZE at h
  unfold PGSIZE
  omega

theorem InRange.manageable {L : Layout} {p : Nat} (h : InRange L p) : Manageable L p := by
  unfold InRange PGROUNDUP PGSIZE at h
  unfold Manageable PGSIZE
  omega

theorem InRange.ne_zero {L : Layout} {p : Nat} (h : InRange L p) : p ≠ 0 := by
  have := L.kend_pos
  have := h.manageable.2.1
  omega

theorem InRange.of_manageable {L : Layout} {p : Nat} (h : Manageable L p)
    (hi : p / PGSIZE < L.PHYSTOP / PGSIZE) : InRange L p := by
  unfold Manageable PGSIZE at h
  unfold PGSIZE at hi
  unfold InRange PGROUNDUP PGSIZE
  omega

theorem Layout.phystop_lt (L : Layout) : L.PHYSTOP < 2 ^ 64 := by
  have := L.index_fits
  unfold PGSIZE at this
  omega

theorem Inv.kalloc_nil {L : Layout} {s : Kmem} (h : Inv L s []) :
    kalloc L s = .ok (0, s) :=
  kalloc_empty L s h.1

theorem Inv.kalloc_cons {L : Layout} {s : Kmem} {x : Nat} {xs : List Nat}
    (h : Inv L s (x :: xs)) :
    ∃ s', kalloc L s = .ok (x, s') ∧ Inv L s' xs ∧
      s'.ref_count = Function.update s.ref_count (x / PGSIZE) 1 := by
  obtain ⟨hfl, hin, hiff, hnn⟩ := h
  have hx : InRange L x := hin x (List.mem_cons_self x xs)
  have hhead : s.freelist = x := hfl.1
  have hc : s.ref_count (x / PGSIZE) = 0 := (hiff x hx).mp (List.mem_cons_self x xs)
  have hnot : x ∉ xs := FreeList.head_not_mem hfl
  have hprops := FreeList.mem_props hfl
  refine ⟨{ ref_count := Function.update s.ref_count (x / PGSIZE) 1,
            freelist := load64 s.mem x,
            mem := memset s.mem x 5 PGSIZE }, ?_, ?_, rfl⟩
  · rw [kalloc_of_index L s (by rw [hhead]; exact hx.ne_zero) (by rw [hhead]; exact hx.index),
      hhead, if_neg (not_not.mpr hc)]
  · refine ⟨?_, ?_, ?_, ?_⟩
    · show FreeList (memset s.mem x 5 PGSIZE) (load64 s.mem x) xs
      refine FreeList.congr ?_ hfl.2.2.2.2
      intro y hy
      have hy' := hprops y (List.mem_cons_of_mem x hy)
      have hne : y ≠ x := fun e => hnot (e ▸ hy)
      exact load64_memset_other _ _ _ _ _ (aligned_apart hy'.2.2 hx.1 hne)
    · exact fun y hy => hin y (List.mem_cons_of_mem x hy)
    · intro p hp
      show p ∈ xs ↔ Function.update s.ref_count (x / PGSIZE) 1 (p / PGSIZE) = 0
      by_cases e : p = x
      · subst e
        rw [Function.update_same]
        exact ⟨fun hm => absurd hm hnot, fun h1 => absurd h1 (by decide)⟩
      · rw [Function.update_noteq (aligned_div_ne hp.1 hx.1 e), ← hiff p hp]
        exact ⟨fun hm => List.mem_cons_of_mem x hm,
          fun hm => (List.mem_cons.mp hm).resolve_left e⟩
    · intro i
      show 0 ≤ Function.update s.ref_count (x / PGSIZE) 1 i
      by_cases e : i = x / PGSIZE
      · rw [e, Function.update_same]; decide
      · rw [Function.update_noteq e]; exact hnn i

theorem Inv.kfree_step {L : Layout} {s s' : Kmem} {l : List Nat} {pa : Nat}
    (h : Inv L s l) (hk : kfree L s pa = .ok s') :
    InRange L pa ∧ pa ∉ l ∧
      ((s.ref_count (pa / PGSIZE) = 1 ∧ s'.ref_count (pa / PGSIZE) = 0 ∧ Inv L s' (pa :: l)) ∨
       (2 ≤ s.ref_count (pa / PGSIZE) ∧ 1 ≤ s'.ref_count (pa / PGSIZE) ∧ Inv L s' l)) := by
  obtain ⟨hfl, hin, hiff, hnn⟩ := h
  obtain ⟨hm, hi, hge⟩ := kfree_ok_inv L s s' pa hk
  have hr : InRange L pa := InRange.of_manageable hm hi
  have hnot : pa ∉ l := by
    intro hmem
    have := (hiff pa hr).mp hmem
    omega
  have hprops := FreeList.mem_props hfl
  refine ⟨hr, hnot, ?_⟩
  rw [kfree_of_index L s pa hm hi, if_neg (by omega)] at hk
  by_cases h2 : s.ref_count (pa / PGSIZE) - 1 > 0
  · rw [if_pos h2] at hk
    have hs := (Except.ok.inj hk).symm
    right
    subst hs
    refine ⟨by omega, ?_, hfl, hin, ?_, ?_⟩
    · show 1 ≤ Function.update s.ref_count (pa / PGSIZE) _ (pa / PGSIZE)
      rw [Function.update_same]; omega
    · intro p hp
      show p ∈ l ↔ Function.update s.ref_count (pa / PGSIZE) _ (p / PGSIZE) = 0
      by_cases e : p / PGSIZE = pa / PGSIZE
      · rw [e, Function.update_same]
        constructor
        · intro hmem
          have := (hiff p hp).mp hmem
          rw [e] at this
          omega
        · intro h0; omega
      · rw [Function.update_noteq e]; exact hiff p hp
    · intro i
      show 0 ≤ Function.update s.ref_count (pa / PGSIZE) _ i
      by_cases e : i = pa / PGSIZE
      · rw [e, Function.update_same]; omega
      · rw [Function.update_noteq e]; exact hnn i
  · rw [if_neg h2] at hk
    have hs := (Except.ok.inj hk).symm
    left
    have h1 : s.ref_count (pa / PGSIZE) = 1 := by omega
    subst hs
    refine ⟨h1, ?_, ?_, ?_, ?_, ?_⟩
    · show Function.update s.ref_count (pa / PGSIZE) _ (pa / PGSIZE) = 0
      rw [Function.update_same]; omega
    · show FreeList (store64 (memset s.mem pa 1 PGSIZE) pa s.freelist) pa (pa :: l)
      have hlt := L.phystop_lt
      refine ⟨rfl, hr.ne_zero, by have := hm.2.2; omega, hm.1, ?_⟩
      rw [load64_store64_same, Nat.mod_eq_of_lt (FreeList.head_lt hfl)]
      refine FreeList.congr ?_ hfl
      intro y hy
      have hy' := hprops y hy
      have hne : y ≠ pa := fun e => hnot (e ▸ hy)
      have hap := aligned_apart hy'.2.2 hm.1 hne
      rw [load64_store64_other _ _ _ _ (by unfold PGSIZE at hap; omega),
        load64_memset_other _ _ _ _ _ hap]
    · intro y hy
      rcases List.mem_cons.mp hy with e | hmem
      · rw [e]; exact hr
      · exact hin y hmem
    · intro p hp
      show p ∈ pa :: l ↔ Function.update s.ref_count (pa / PGSIZE) _ (p / PGSIZE) = 0
      by_cases e : p = pa
      · subst e
        rw [Function.update_same]
        exact ⟨fun _ => by omega, fun _ => List.mem_cons_self p l⟩
      · rw [Function.update_noteq (aligned_div_ne hp.1 hm.1 e), ← hiff p hp]
        exact ⟨fun hmem => (List.mem_cons.mp hmem).resolve_left e,
          fun hmem => List.mem_cons_of_mem pa hmem⟩
    · intro i
      show 0 ≤ Function.update s.ref_count (pa / PGSIZE) _ i
      by_cases e : i = pa / PGSIZE
      · rw [e, Function.update_same]; omega
      · rw [Function.update_noteq e]; exact hnn i

theorem Inv.incr_step {L : Layout} {s s' : Kmem} {l : List Nat} {pa : Nat}
    (h : Inv L s l) (hk : increment_page_ref L s pa = .ok s') : Inv L s' l := by
  obtain ⟨hfl, hin, hiff, hnn⟩ := h
  obtain ⟨hp, hi, hge, hmax⟩ := increment_page_ref_ok_inv L s s' pa hk
  rw [increment_page_ref_of_index L s pa hp hi, if_neg (by omega), if_neg (by omega)] at hk
  have hs := (Except.ok.inj hk).symm
  subst hs
  refine ⟨hfl, hin, ?_, ?_⟩
  · intro p hq
    show p ∈ l ↔ Function.update s.ref_count (pa / PGSIZE) _ (p / PGSIZE) = 0
    by_cases e : p / PGSIZE = pa / PGSIZE
    · rw [e, Function.update_same]
      constructor
      · intro hmem
        have := (hiff p hq).mp hmem
        rw [e] at this
        omega
      · intro h0; omega
    · rw [Function.update_noteq e]; exact hiff p hq
  · intro i
    show 0 ≤ Function.update s.ref_count (pa / PGSIZE) _ i
    by_cases e : i = pa / PGSIZE
    · rw [e, Function.update_same]; omega
    · rw [Function.update_noteq e]; exact hnn i

/-! ## Releasing the last reference pushes the frame -/

theorem kfree_push (L : Layout) (s : Kmem) (pa : Nat) (l : List Nat)
    (hm : Manageable L pa) (hi : pa / PGSIZE < L.PHYSTOP / PGSIZE)
    (h1 : s.ref_count (pa / PGSIZE) = 1) (hfl : FreeList s.mem s.freelist l)
    (hnot : pa ∉ l) :
    ∃ s', kfree L s pa = .ok s' ∧
      s'.ref_count = Function.update s.ref_count (pa / PGSIZE) 0 ∧
      s'.freelist = pa ∧ FreeList s'.mem s'.freelist (pa :: l) := by
  have hprops := FreeList.mem_props hfl
  have hlt := L.phystop_lt
  have hr : InRange L pa := InRange.of_manageable hm hi
  refine ⟨{ ref_count := Function.update s.ref_count (pa / PGSIZE) (s.ref_count (pa / PGSIZE) - 1),
            freelist := pa,
            mem := store64 (memset s.mem pa 1 PGSIZE) pa s.freelist }, ?_, ?_, rfl, ?_⟩
  · rw [kfree_of_index L s pa hm hi, if_neg (by omega), if_neg (by omega)]
  · show Function.update s.ref_count (pa / PGSIZE) (s.ref_count (pa / PGSIZE) - 1) = _
    rw [h1]; rfl
  · show FreeList (store64 (memset s.mem pa 1 PGSIZE) pa s.freelist) pa (pa :: l)
    refine ⟨rfl, hr.ne_zero, by have := hm.2.2; omega, hm.1, ?_⟩
    rw [load64_store64_same, Nat.mod_eq_of_lt (FreeList.head_lt hfl)]
    refine FreeList.congr ?_ hfl
    intro y hy
    have hy' := hprops y hy
    have hne : y ≠ pa := fun e => hnot (e ▸ hy)
    have hap := aligned_apart hy'.2.2 hm.1 hne
    rw [load64_store64_other _ _ _ _ (by unfold PGSIZE at hap; omega),
      load64_memset_other _ _ _ _ _ hap]

/-! ## The loop of `freerange` -/

theorem framesFrom_succ (p n : Nat) :
    framesFrom p (n + 1) = p :: framesFrom (p + PGSIZE) n := by
  unfold framesFrom
  rw [List.range_succ_eq_map, List.map_cons, List.map_map]
  refine congrArg₂ _ (by simp) (List.map_congr_left ?_)
  intro i _
  show p + PGSIZE * (i + 1) = p + PGSIZE + PGSIZE * i
  rw [Nat.mul_succ]; omega

theorem mem_framesFrom {p n q : Nat} :
    q ∈ framesFrom p n ↔ ∃ i, i < n ∧ q = p + PGSIZE * i := by
  unfold framesFrom
  rw [List.mem_map]
  constructor
  · rintro ⟨i, hi, e⟩; exact ⟨i, List.mem_range.mp hi, e.symm⟩
  · rintro ⟨i, hi, e⟩; exact ⟨i, List.mem_range.mpr hi, e.symm⟩

theorem mem_frames {L : Layout} {q : Nat} : q ∈ frames L ↔ InRange L q := by
  unfold frames frameCount
  rw [mem_framesFrom]
  unfold InRange PGROUNDUP PGSIZE
  constructor
  · rintro ⟨i, hi, e⟩
    omega
  · rintro ⟨h1, h2, h3⟩
    refine ⟨(q - (L.kend + 4096 - 1) / 4096 * 4096) / 4096, ?_, ?_⟩
    · omega
    · omega

theorem freerangeLoop_spec (L : Layout) :
    ∀ (n p : Nat) (s : Kmem) (l : List Nat), (L.PHYSTOP - p) / PGSIZE = n →
      p % PGSIZE = 0 → L.kend ≤ p → (∀ i, s.ref_count i = 0) →
      FreeList s.mem s.freelist l → (∀ x ∈ l, x < p) →
      ∃ s', freerangeLoop L L.PHYSTOP p s = .ok s' ∧ (∀ i, s'.ref_count i = 0) ∧
        FreeList s'.mem s'.freelist ((framesFrom p n).reverse ++ l) := by
  intro n
  induction n with
  | zero =>
    intro p s l hn _ _ hz hfl _
    refine ⟨s, ?_, hz, ?_⟩
    · rw [freerangeLoop, if_neg]
      unfold PGSIZE at *
      omega
    · simpa [framesFrom] using hfl
  | succ n ih =>
    intro p s l hn ha hk hz hfl hlt
    have hle : p + PGSIZE ≤ L.PHYSTOP := by unfold PGSIZE at *; omega
    have hidx : p / PGSIZE < L.PHYSTOP / PGSIZE := by unfold PGSIZE at *; omega
    have hm : Manageable L p := ⟨ha, hk, by unfold PGSIZE at hle; omega⟩
    have hnot : p ∉ l := fun hmem => Nat.lt_irrefl p (hlt p hmem)
    obtain ⟨s1, hfree, hrc, hhead, hfl1⟩ :=
      kfree_push L { s with ref_count := Function.update s.ref_count (p / PGSIZE) 1 } p l
        hm hidx (by simp) hfl hnot
    have hz1 : ∀ i, s1.ref_count i = 0 := by
      intro i
      rw [hrc]
      show Function.update (Function.update s.ref_count (p / PGSIZE) 1) (p / PGSIZE) 0 i = 0
      by_cases e : i = p / PGSIZE
      · rw [e, Function.update_same]
      · rw [Function.update_noteq e, Function.update_noteq e]; exact hz i
    have hlt1 : ∀ x ∈ p :: l, x < p + PGSIZE := by
      intro x hx
      rcases List.mem_cons.mp hx with e | hmem
      · rw [e]; unfold PGSIZE; omega
      · have := hlt x hmem; omega
    obtain ⟨s2, hloop, hz2, hfl2⟩ :=
      ih (p + PGSIZE) s1 (p :: l) (by unfold PGSIZE at *; omega)
        (by unfold PGSIZE at *; omega) (by omega) hz1 hfl1 hlt1
    refine ⟨s2, ?_, hz2, ?_⟩
    · rw [freerangeLoop, if_pos hle, if_pos hidx]
      simp only [hfree]
      exact hloop
    · rw [framesFrom_succ, List.reverse_cons, List.append_assoc]
      exact hfl2

theorem kinit_spec (L : Layout) (m : Nat → Nat) :
    ∃ s, kinit L (boot m) = .ok s ∧ (∀ i, s.ref_count i = 0) ∧
      FreeList s.mem s.freelist (frames L).reverse := by
  obtain ⟨s, h1, h2, h3⟩ :=
    freerangeLoop_spec L (frameCount L) (PGROUNDUP L.kend) (boot m) [] rfl
      (by unfold PGROUNDUP PGSIZE; omega) (by unfold PGROUNDUP PGSIZE; omega)
      (fun _ => rfl) rfl (fun x hx => absurd hx (List.not_mem_nil x))
  refine ⟨s, h1, h2, ?_⟩
  rw [List.append_nil] at h3
  exact h3

theorem kinit_inv (L : Layout) (m : Nat → Nat) (s : Kmem) (h : kinit L (boot m) = .ok s) :
    Inv L s (frames L).reverse := by
  obtain ⟨s', h1, h2, h3⟩ := kinit_spec L m
  rw [h] at h1
  have e : s = s' := Except.ok.inj h1
  subst e
  refine ⟨h3, ?_, ?_, ?_⟩
  · intro x hx
    exact mem_frames.mp (List.mem_reverse.mp hx)
  · intro p hp
    exact ⟨fun _ => h2 _, fun _ => List.mem_reverse.mpr (mem_frames.mpr hp)⟩
  · intro i; rw [h2 i]

/-! ## Sequences of calls -/

theorem run_cons_ok {L : Layout} {s s' : Kmem} {c : Call} {cs : List Call}
    (h : run L s (c :: cs) = .ok s') :
    ∃ r t, step L s c = .ok (r, t) ∧ run L t cs = .ok s' := by
  unfold run at h
  split at h
  · rename_i r t hst
    exact ⟨r, t, hst, h⟩
  · exact absurd h (by simp)

theorem run_append_ok {L : Layout} :
    ∀ {cs ds : List Call} {s t u : Kmem}, run L s cs = .ok t → run L t ds = .ok u →
      run L s (cs ++ ds) = .ok u
  | [], _, _, _, _, h1, h2 => by
    have e := Except.ok.inj h1
    subst e
    exact h2
  | c :: cs, ds, s, t, u, h1, h2 => by
    obtain ⟨r, w, hst, hrun⟩ := run_cons_ok h1
    show run L s (c :: (cs ++ ds)) = .ok u
    unfold run
    simp only [hst]
    exact run_append_ok hrun h2

theorem Inv.step_ok {L : Layout} {s s' : Kmem} {l : List Nat} {c : Call} {r : Nat}
    (h : Inv L s l) (hs : step L s c = .ok (r, s')) :
    ∃ l', Inv L s' l' ∧
      ∀ a, a ∈ l' → a ∉ l → c = Call.kfree a ∧ s'.ref_count (a / PGSIZE) = 0 := by
  cases c with
  | kalloc =>
    have hs : kalloc L s = .ok (r, s') := hs
    cases l with
    | nil =>
      rw [h.kalloc_nil] at hs
      have e := (Prod.mk.inj (Except.ok.inj hs)).2
      subst e
      exact ⟨[], h, fun a ha _ => absurd ha (List.not_mem_nil a)⟩
    | cons x xs =>
      obtain ⟨t, hk, hinv, -⟩ := h.kalloc_cons
      rw [hk] at hs
      have e := (Prod.mk.inj (Except.ok.inj hs)).2
      subst e
      exact ⟨xs, hinv, fun a ha hna => absurd (List.mem_cons_of_mem x ha) hna⟩
  | kfree pa =>
    have hs : (match kfree L s pa with
      | .ok s' => (.ok (0, s') : Except Fault (Nat × Kmem))
      | .error e => .error e) = .ok (r, s') := hs
    split at hs
    · rename_i t hk
      have e := (Prod.mk.inj (Except.ok.inj hs)).2
      subst e
      obtain ⟨-, -, hcase⟩ := h.kfree_step hk
      rcases hcase with ⟨-, h0, hinv⟩ | ⟨-, -, hinv⟩
      · refine ⟨pa :: l, hinv, ?_⟩
        intro a ha hna
        rcases List.mem_cons.mp ha with e | hmem
        · subst e; exact ⟨rfl, h0⟩
        · exact absurd hmem hna
      · exact ⟨l, hinv, fun a ha hna => absurd ha hna⟩
    · exact absurd hs (by simp)
  | increment_page_ref pa =>
    have hs : (match increment_page_ref L s pa with
      | .ok s' => (.ok (0, s') : Except Fault (Nat × Kmem))
      | .error e => .error e) = .ok (r, s') := hs
    split at hs
    · rename_i t hk
      have e := (Prod.mk.inj (Except.ok.inj hs)).2
      subst e
      exact ⟨l, h.incr_step hk, fun a ha hna => absurd ha hna⟩
    · exact absurd hs (by simp)

theorem Inv.run_ok {L : Layout} :
    ∀ {cs : List Call} {s s' : Kmem} {l : List Nat}, Inv L s l → run L s cs = .ok s' →
      ∃ l', Inv L s' l'
  | [], _, _, l, h, hr => by
    have e := Except.ok.inj hr
    subst e
    exact ⟨l, h⟩
  | _ :: _, _, _, _, h, hr => by
    obtain ⟨r, t, hst, hrun⟩ := run_cons_ok hr
    obtain ⟨l1, hinv, -⟩ := h.step_ok hst
    exact Inv.run_ok hinv hrun

theorem Inv.reappear {L : Layout} {a : Nat} :
    ∀ {cs : List Call} {s s' : Kmem} {l l' : List Nat}, Inv L s l → a ∉ l →
      run L s cs = .ok s' → Inv L s' l' → a ∈ l' →
      ∃ m1 m2 t t', cs = m1 ++ Call.kfree a :: m2 ∧ run L s m1 = .ok t ∧
        kfree L t a = .ok t' ∧ t'.ref_count (a / PGSIZE) = 0
  | [], _, _, l, l', h, hna, hr, h', ha => by
    have e := Except.ok.inj hr
    subst e
    have := FreeList.unique h.1 h'.1
    subst this
    exact absurd ha hna
  | c :: cs, s, s', l, l', h, hna, hr, h', ha => by
    obtain ⟨r, t, hst, hrun⟩ := run_cons_ok hr
    obtain ⟨l1, hinv, hnew⟩ := h.step_ok hst
    by_cases hmem : a ∈ l1
    · obtain ⟨hc, h0⟩ := hnew a hmem hna
      subst hc
      have hk : kfree L s a = .ok t := by
        have hst' : (match kfree L s a with
          | .ok s' => (.ok (0, s') : Except Fault (Nat × Kmem))
          | .error e => .error e) = .ok (r, t) := hst
        split at hst'
        · rename_i w hk
          rw [hk, (Prod.mk.inj (Except.ok.inj hst')).2]
        · exact absurd hst' (by simp)
      exact ⟨[], cs, s, t, rfl, rfl, hk, h0⟩
    · obtain ⟨m1, m2, u, u', e, hr1, hk, h0⟩ := Inv.reappear hinv hmem hrun h' ha
      refine ⟨c :: m1, m2, u, u', by rw [e]; rfl, ?_, hk, h0⟩
      show run L s (c :: m1) = .ok u
      unfold run
      simp only [hst]
      exact hr1

theorem Inv.kallocN_ok {L : Layout} :
    ∀ {l : List Nat} {s : Kmem}, Inv L s l →
      ∃ s', kallocN L l.length s = .ok (l, s') ∧ Inv L s' []
  | [], s, h => ⟨s, rfl, h⟩
  | x :: xs, s, h => by
    obtain ⟨t, hk, hinv, -⟩ := h.kalloc_cons
    obtain ⟨s', hn, hinv'⟩ := Inv.kallocN_ok hinv
    refine ⟨s', ?_, hinv'⟩
    show kallocN L (xs.length + 1) s = _
    unfold kallocN
    simp only [hk, hn]

theorem countOf_eq_some {L : Layout} {st : Kmem} {pa : Nat} {k : Int} :
    countOf L st pa = some k ↔
      pa / PGSIZE < L.PHYSTOP / PGSIZE ∧ st.ref_count (pa / PGSIZE) = k := by
  unfold countOf
  by_cases h : pa / PGSIZE < L.PHYSTOP / PGSIZE
  · rw [if_pos h]
    exact ⟨fun e => ⟨h, Option.some.inj e⟩, fun e => congrArg some e.2⟩
  · rw [if_neg h]
    exact ⟨fun e => absurd e (by simp), fun e => absurd e.1 h⟩

theorem kfree_outside_table (L : Layout) (st : Kmem) (pa : Nat) (hm : Manageable L pa)
    (hi : ¬ pa / PGSIZE < L.PHYSTOP / PGSIZE) : kfree L st pa = .error .outOfBounds := by
  obtain ⟨ha, hk, hp⟩ := hm
  have hc : ¬ (pa % PGSIZE ≠ 0 ∨ pa < L.kend ∨ pa ≥ L.PHYSTOP) := by
    intro h; rcases h with h | h | h
    · exact h ha
    · omega
    · omega
  have hle : pa / PGSIZE ≤ L.PHYSTOP / PGSIZE := Nat.div_le_div_right (le_of_lt hp)
  have hnot : ¬ inTable L (toInt32 (pa / PGSIZE)) := fun h => hi (toInt32_inTable L hle h)
  unfold kfree
  rw [if_neg hc]
  simp only
  rw [if_pos hnot]

/-! ## Release: fatal paths and effects -/

/-- C5: `kfree` takes the fatal path whenever `pa` is not a multiple of 4096, or
lies below `end`, or is at or above `PHYSTOP`, whatever the count table holds;
and for a page-aligned `pa` in `[end, PHYSTOP)` it takes the fatal path exactly
when the table entry `ref_count[pa/4096]` is below 1. -/
theorem C5_kfree_fatal_paths (L : Layout) (st : Kmem) (pa : Nat) :
    ((pa % PGSIZE ≠ 0 ∨ pa < L.kend ∨ L.PHYSTOP ≤ pa) → kfree L st pa = .error .panic) ∧
    (Manageable L pa →
      (kfree L st pa = .error .panic ↔ ∃ v, countOf L st pa = some v ∧ v < 1)) := by
  constructor
  · intro h
    unfold kfree
    rw [if_pos h]
  · intro hm
    by_cases hi : pa / PGSIZE < L.PHYSTOP / PGSIZE
    · rw [kfree_of_index L st pa hm hi]
      constructor
      · intro h
        refine ⟨st.ref_count (pa / PGSIZE), countOf_eq_some.mpr ⟨hi, rfl⟩, ?_⟩
        by_contra hlt
        rw [if_neg hlt] at h
        split at h <;> exact absurd h (by simp)
      · rintro ⟨v, hv, hlt⟩
        have := (countOf_eq_some.mp hv).2
        rw [if_pos (by omega)]
    · rw [kfree_outside_table L st pa hm hi]
      constructor
      · intro h; exact absurd h (by simp)
      · rintro ⟨v, hv, -⟩
        exact absurd (countOf_eq_some.mp hv).1 hi

theorem C5_kfree_fatal_paths_witness :
    kfree exLayout (exOwned 1) 8193 = .error .panic ∧
    (kfree exLayout (exOwned 0) 8192 = .error .panic ↔
      ∃ v, countOf exLayout (exOwned 0) 8192 = some v ∧ v < 1) :=
  ⟨(C5_kfree_fatal_paths exLayout (exOwned 1) 8193).1 (by decide),
   (C5_kfree_fatal_paths exLayout (exOwned 0) 8192).2 (by decide)⟩

/-- C6: for an in-range page-aligned frame whose count is exactly 1, the first
`kfree` returns normally and a second `kfree` of the same frame right afterwards
takes the fatal path. -/
theorem C6_double_free_fatal (L : Layout) (st : Kmem) (pa : Nat) (hm : Manageable L pa)
    (h1 : countOf L st pa = some 1) :
    ∃ s1, kfree L st pa = .ok s1 ∧ kfree L s1 pa = .error .panic := by
  obtain ⟨hi, hc⟩ := countOf_eq_some.mp h1
  let rc := Function.update st.ref_count (pa / PGSIZE) (st.ref_count (pa / PGSIZE) - 1)
  refine ⟨{ ref_count := rc, freelist := pa,
            mem := store64 (memset st.mem pa 1 PGSIZE) pa st.freelist }, ?_, ?_⟩
  · rw [kfree_of_index L st pa hm hi, if_neg (by omega), if_neg (by omega)]
  · rw [kfree_of_index L _ pa hm hi, if_pos]
    show Function.update st.ref_count (pa / PGSIZE) _ (pa / PGSIZE) < 1
    rw [Function.update_same]; omega

theorem C6_double_free_fatal_witness :
    ∃ s1, kfree exLayout (exOwned 1) 8192 = .ok s1 ∧ kfree exLayout s1 8192 = .error .panic :=
  C6_double_free_fatal exLayout (exOwned 1) 8192 (by decide) (by decide)

/-- C7: for an in-range page-aligned frame `pa` whose count is `k ≥ 2`, `kfree`
returns normally with `ref_count[pa/4096] = k - 1`, every other count unchanged,
the free-list head unchanged and memory (hence the frame's bytes and every
free-list link) unchanged. -/
theorem C7_kfree_shared (L : Layout) (st : Kmem) (pa : Nat) (k : Int)
    (hm : Manageable L pa) (hk : countOf L st pa = some k) (h2 : 2 ≤ k) :
    ∃ s', kfree L st pa = .ok s' ∧ countOf L s' pa = some (k - 1) ∧
      (∀ i, i ≠ pa / PGSIZE → s'.ref_count i = st.ref_count i) ∧
      s'.freelist = st.freelist ∧ s'.mem = st.mem ∧
      (∀ l, FreeList s'.mem s'.freelist l ↔ FreeList st.mem st.freelist l) := by
  obtain ⟨hi, hc⟩ := countOf_eq_some.mp hk
  let rc := Function.update st.ref_count (pa / PGSIZE) (st.ref_count (pa / PGSIZE) - 1)
  refine ⟨{ st with ref_count := rc }, ?_, ?_, ?_, rfl, rfl, fun l => Iff.rfl⟩
  · rw [kfree_of_index L st pa hm hi, if_neg (by omega), if_pos (by omega)]
  · refine countOf_eq_some.mpr ⟨hi, ?_⟩
    show Function.update st.ref_count (pa / PGSIZE) _ (pa / PGSIZE) = k - 1
    rw [Function.update_same, hc]
  · intro i hne
    exact Function.update_noteq hne _ _

theorem C7_kfree_shared_witness :
    ∃ s', kfree exLayout (exOwned 3) 8192 = .ok s' ∧
      countOf exLayout s' 8192 = some (3 - 1) ∧
      (∀ i, i ≠ 8192 / PGSIZE → s'.ref_count i = (exOwned 3).ref_count i) ∧
      s'.freelist = (exOwned 3).freelist ∧ s'.mem = (exOwned 3).mem ∧
      (∀ l, FreeList s'.mem s'.freelist l ↔
        FreeList (exOwned 3).mem (exOwned 3).freelist l) :=
  C7_kfree_shared exLayout (exOwned 3) 8192 3 (by decide) (by decide) (by decide)

/-! ## Allocate -/

/-- C10: when the free list is empty, `kalloc` returns 0 without taking the
fatal path and leaves the count table, the free list and memory unchanged. -/
theorem C10_kalloc_empty (L : Layout) (st : Kmem) (he : FreeList st.mem st.freelist []) :
    kalloc L st = .ok (0, st) :=
  kalloc_empty L st he

theorem C10_kalloc_empty_witness : kalloc exLayout (exOwned 1) = .ok (0, exOwned 1) :=
  C10_kalloc_empty exLayout (exOwned 1) (by decide)

/-- C9: when the free list is the sequence `r :: l` and the table entry of its
head `r` is 0, `kalloc` returns `r`, sets `ref_count[r/4096]` to 1, leaves every
other count unchanged, and leaves `l` as the free list. -/
theorem C9_kalloc_pops_head (L : Layout) (st : Kmem) (r : Nat) (l : List Nat)
    (hfl : FreeList st.mem st.freelist (r :: l)) (h0 : countOf L st r = some 0) :
    ∃ s', kalloc L st = .ok (r, s') ∧ countOf L s' r = some 1 ∧
      (∀ i, i ≠ r / PGSIZE → s'.ref_count i = st.ref_count i) ∧
      FreeList s'.mem s'.freelist l := by
  obtain ⟨hi, hc⟩ := countOf_eq_some.mp h0
  have hhead : st.freelist = r := hfl.1
  have hnot : r ∉ l := FreeList.head_not_mem hfl
  have hprops := FreeList.mem_props hfl
  refine ⟨{ ref_count := Function.update st.ref_count (r / PGSIZE) 1,
            freelist := load64 st.mem r,
            mem := memset st.mem r 5 PGSIZE }, ?_, ?_, ?_, ?_⟩
  · rw [kalloc_of_index L st (by rw [hhead]; exact hfl.2.1) (by rw [hhead]; exact hi),
      hhead, if_neg (not_not.mpr hc)]
  · refine countOf_eq_some.mpr ⟨hi, ?_⟩
    show Function.update st.ref_count (r / PGSIZE) 1 (r / PGSIZE) = 1
    rw [Function.update_same]
  · intro i hne
    exact Function.update_noteq hne _ _
  · show FreeList (memset st.mem r 5 PGSIZE) (load64 st.mem r) l
    refine FreeList.congr ?_ hfl.2.2.2.2
    intro y hy
    have hy' := hprops y (List.mem_cons_of_mem r hy)
    have hne : y ≠ r := fun e => hnot (e ▸ hy)
    exact load64_memset_other _ _ _ _ _ (aligned_apart hy'.2.2 hfl.2.2.2.1 hne)

theorem C9_kalloc_pops_head_witness :
    ∃ s', kalloc exLayout exFree = .ok (8192, s') ∧ countOf exLayout s' 8192 = some 1 ∧
      (∀ i, i ≠ 8192 / PGSIZE → s'.ref_count i = exFree.ref_count i) ∧
      FreeList s'.mem s'.freelist [] :=
  C9_kalloc_pops_head exLayout exFree 8192 [] (by decide) (by decide)

/-! ## Release of the last reference -/

/-- C8 fails as stated: in the state where frame 8192 is the only frame on the
free list while its count is 1, `kfree` returns normally, but the resulting free
list is not 8192 followed by the previous free list (the frame now links to
itself). -/
theorem C8_counterexample :
    Manageable exLayout 8192 ∧ countOf exLayout exCorrupt 8192 = some 1 ∧
      FreeList exCorrupt.mem exCorrupt.freelist [8192] ∧
      ∃ s', kfree exLayout exCorrupt 8192 = .ok s' ∧
        ¬ FreeList s'.mem s'.freelist (8192 :: [8192]) := by
  have hm : Manageable exLayout 8192 := by decide
  refine ⟨hm, by decide, by decide, ?_⟩
  refine ⟨{ ref_count := Function.update exCorrupt.ref_count (8192 / PGSIZE)
              (exCorrupt.ref_count (8192 / PGSIZE) - 1),
            freelist := 8192,
            mem := store64 (memset exCorrupt.mem 8192 1 PGSIZE) 8192 exCorrupt.freelist },
    ?_, ?_⟩
  · rw [kfree_of_index exLayout exCorrupt 8192 hm (by decide), if_neg (by decide),
      if_neg (by decide)]
  · intro h
    have h1 : load64 (store64 (memset exCorrupt.mem 8192 1 PGSIZE) 8192 exCorrupt.freelist)
        8192 = 0 := h.2.2.2.2.2.2.2.2
    rw [load64_store64_same] at h1
    exact absurd h1 (by decide)

/-- C8 (amended): for an in-range page-aligned frame `pa` whose count is exactly 1
and which is not on the free list `l`, `kfree` returns normally with
`ref_count[pa/4096] = 0`, every other count unchanged, and the new free list is
`pa` followed by `l`. -/
theorem C8_kfree_last_owner (L : Layout) (st : Kmem) (pa : Nat) (l : List Nat)
    (hm : Manageable L pa) (h1 : countOf L st pa = some 1)
    (hfl : FreeList st.mem st.freelist l) (hnot : pa ∉ l) :
    ∃ s', kfree L st pa = .ok s' ∧ countOf L s' pa = some 0 ∧
      (∀ i, i ≠ pa / PGSIZE → s'.ref_count i = st.ref_count i) ∧
      FreeList s'.mem s'.freelist (pa :: l) := by
  obtain ⟨hi, hc⟩ := countOf_eq_some.mp h1
  obtain ⟨s', hk, hrc, -, hfl'⟩ := kfree_push L st pa l hm hi hc hfl hnot
  refine ⟨s', hk, countOf_eq_some.mpr ⟨hi, ?_⟩, ?_, hfl'⟩
  · rw [hrc, Function.update_same]
  · intro i hne
    rw [hrc]
    exact Function.update_noteq hne _ _

theorem C8_kfree_last_owner_witness :
    ∃ s', kfree exLayout (exOwned 1) 8192 = .ok s' ∧ countOf exLayout s' 8192 = some 0 ∧
      (∀ i, i ≠ 8192 / PGSIZE → s'.ref_count i = (exOwned 1).ref_count i) ∧
      FreeList s'.mem s'.freelist (8192 :: []) :=
  C8_kfree_last_owner exLayout (exOwned 1) 8192 [] (by decide) (by decide) (by decide)
    (by decide)

/-! ## Initialisation and reachable states -/

theorem inRange_iff_offset {L : Layout} {p : Nat} :
    InRange L p ↔ ∃ i, p = PGROUNDUP L.kend + PGSIZE * i ∧ p + PGSIZE ≤ L.PHYSTOP := by
  unfold InRange PGROUNDUP PGSIZE
  constructor
  · rintro ⟨h1, h2, h3⟩
    exact ⟨(p - (L.kend + 4096 - 1) / 4096 * 4096) / 4096, by omega, h3⟩
  · rintro ⟨i, e, h3⟩
    omega

theorem Inv.counts {L : Layout} {s : Kmem} {l : List Nat} (h : Inv L s l) :
    ∀ p, InRange L p → (p ∈ l ↔ countOf L s p = some 0) ∧
      (p ∉ l → ∃ k, countOf L s p = some k ∧ 1 ≤ k) := by
  obtain ⟨-, -, hiff, hnn⟩ := h
  intro p hp
  constructor
  · rw [hiff p hp]
    exact ⟨fun e => countOf_eq_some.mpr ⟨hp.index, e⟩, fun e => (countOf_eq_some.mp e).2⟩
  · intro hnot
    refine ⟨s.ref_count (p / PGSIZE), countOf_eq_some.mpr ⟨hp.index, rfl⟩, ?_⟩
    have h0 := hnn (p / PGSIZE)
    have hne : s.ref_count (p / PGSIZE) ≠ 0 := fun e => hnot ((hiff p hp).mpr e)
    omega

/-- C1: in every state reached from the boot state by `kinit` followed by any
sequence of normally returning `kalloc`, `kfree` and `increment_page_ref` calls
with arbitrary arguments, the free list is a sequence `l` without repetition, no
count is negative, and every page-aligned frame `p` with `PGROUNDUP(end) ≤ p` and
`p + 4096 ≤ PHYSTOP` is on `l` exactly when `ref_count[p/4096]` is 0 and has
count at least 1 when it is not on `l`. -/
theorem C1_reachable_invariant (L : Layout) (m : Nat → Nat) (s0 s : Kmem) (cs : List Call)
    (hinit : kinit L (boot m) = .ok s0) (hrun : run L s0 cs = .ok s) :
    ∃ l, FreeList s.mem s.freelist l ∧ l.Nodup ∧ (∀ i, 0 ≤ s.ref_count i) ∧
      ∀ p, InRange L p → (p ∈ l ↔ countOf L s p = some 0) ∧
        (p ∉ l → ∃ k, countOf L s p = some k ∧ 1 ≤ k) := by
  obtain ⟨l, hinv⟩ := Inv.run_ok (kinit_inv L m s0 hinit) hrun
  exact ⟨l, hinv.1, FreeList.nodup hinv.1, hinv.2.2.2, hinv.counts⟩

/-- C3: from the boot state with `end ≤ PHYSTOP`, `kinit` returns normally; the
resulting free list holds exactly the frames `PGROUNDUP(end) + 4096 * i` with
`p + 4096 ≤ PHYSTOP`, each once; each of them has count 0; and the count of every
other frame is what it was before. -/
theorem C3_kinit_builds_pool (L : Layout) (m : Nat → Nat) (hle : L.kend ≤ L.PHYSTOP) :
    ∃ s l, kinit L (boot m) = .ok s ∧ FreeList s.mem s.freelist l ∧ l.Nodup ∧
      (∀ p, p ∈ l ↔ ∃ i, p = PGROUNDUP L.kend + PGSIZE * i ∧ p + PGSIZE ≤ L.PHYSTOP) ∧
      (∀ p ∈ l, countOf L s p = some 0) ∧
      (∀ i, (∀ p ∈ l, p / PGSIZE ≠ i) → s.ref_count i = (boot m).ref_count i) := by
  have _ := hle
  obtain ⟨s, hk, hz, hfl⟩ := kinit_spec L m
  refine ⟨s, (frames L).reverse, hk, hfl, FreeList.nodup hfl, ?_, ?_, ?_⟩
  · intro p
    rw [List.mem_reverse, mem_frames, inRange_iff_offset]
  · intro p hp
    have hr : InRange L p := mem_frames.mp (List.mem_reverse.mp hp)
    exact countOf_eq_some.mpr ⟨hr.index, hz _⟩
  · intro i _
    exact hz i

theorem frames_exLayout : (frames exLayout).reverse = [16384, 12288, 8192] := by decide

theorem run_single_kfree {L : Layout} {s s' : Kmem} {pa : Nat} (h : kfree L s pa = .ok s') :
    run L s [Call.kfree pa] = .ok s' := by
  unfold run step
  simp only [h]
  rfl

theorem run_single_kalloc {L : Layout} {s s' : Kmem} {r : Nat} (h : kalloc L s = .ok (r, s')) :
    run L s [Call.kalloc] = .ok s' := by
  unfold run step
  simp only [h]
  rfl

/-- Allocating the head of the free list, releasing it and allocating again. -/
theorem Inv.alloc_free_alloc {L : Layout} {s : Kmem} {x : Nat} {xs : List Nat}
    (h : Inv L s (x :: xs)) :
    ∃ s2 s3 s4, kalloc L s = .ok (x, s2) ∧ kfree L s2 x = .ok s3 ∧
      kalloc L s3 = .ok (x, s4) ∧ Inv L s2 xs ∧ Inv L s3 (x :: xs) ∧ Inv L s4 xs := by
  have hx : InRange L x := h.2.1 x (List.mem_cons_self x xs)
  have hnot : x ∉ xs := FreeList.head_not_mem h.1
  obtain ⟨s2, hk2, hinv2, hrc2⟩ := h.kalloc_cons
  have hc2 : s2.ref_count (x / PGSIZE) = 1 := by rw [hrc2, Function.update_same]
  obtain ⟨s3, hk3, -, -, -⟩ :=
    kfree_push L s2 x xs hx.manageable hx.index hc2 hinv2.1 hnot
  have hinv3 : Inv L s3 (x :: xs) := by
    obtain ⟨-, -, hcase⟩ := hinv2.kfree_step hk3
    rcases hcase with ⟨-, -, hinv⟩ | ⟨hge, -, -⟩
    · exact hinv
    · omega
  obtain ⟨s4, hk4, hinv4, -⟩ := hinv3.kalloc_cons
  exact ⟨s2, s3, s4, hk2, hk3, hk4, hinv2, hinv3, hinv4⟩

theorem C1_reachable_invariant_witness :
    ∃ s0 s, kinit exLayout (boot zeroMem) = .ok s0 ∧
      run exLayout s0 [Call.kalloc] = .ok s ∧
      ∃ l, FreeList s.mem s.freelist l ∧ l.Nodup ∧ (∀ i, 0 ≤ s.ref_count i) ∧
        ∀ p, InRange exLayout p → (p ∈ l ↔ countOf exLayout s p = some 0) ∧
          (p ∉ l → ∃ k, countOf exLayout s p = some k ∧ 1 ≤ k) := by
  obtain ⟨s0, h0, -, -⟩ := kinit_spec exLayout zeroMem
  have hinv := kinit_inv exLayout zeroMem s0 h0
  rw [frames_exLayout] at hinv
  obtain ⟨s, hk, -, -⟩ := hinv.kalloc_cons
  have hrun := run_single_kalloc hk
  exact ⟨s0, s, h0, hrun, C1_reachable_invariant exLayout zeroMem s0 s [Call.kalloc] h0 hrun⟩

theorem C3_kinit_builds_pool_witness :
    ∃ s l, kinit exLayout (boot zeroMem) = .ok s ∧ FreeList s.mem s.freelist l ∧ l.Nodup ∧
      (∀ p, p ∈ l ↔
        ∃ i, p = PGROUNDUP exLayout.kend + PGSIZE * i ∧ p + PGSIZE ≤ exLayout.PHYSTOP) ∧
      (∀ p ∈ l, countOf exLayout s p = some 0) ∧
      (∀ i, (∀ p ∈ l, p / PGSIZE ≠ i) → s.ref_count i = (boot zeroMem).ref_count i) :=
  C3_kinit_builds_pool exLayout zeroMem (by decide)

/-- C2: whenever, in a sequence of normally returning calls after `kinit`, a
`kalloc` call returns a non-zero address `a`, the count of `a` is 0 at that
moment (never 1 or more); and if a later `kalloc` call of the sequence returns
the same `a`, then between the two there is a `kfree(a)` call that returns
normally and leaves the count of `a` at 0. -/
theorem C2_no_double_allocation (L : Layout) (m : Nat → Nat) (s0 s1 s2 : Kmem)
    (pre : List Call) (a : Nat)
    (hinit : kinit L (boot m) = .ok s0) (hpre : run L s0 pre = .ok s1)
    (hfirst : kalloc L s1 = .ok (a, s2)) (ha : a ≠ 0) :
    countOf L s1 a = some 0 ∧
      ∀ (mid : List Call) (s3 s4 : Kmem), run L s2 mid = .ok s3 →
        kalloc L s3 = .ok (a, s4) →
        ∃ m1 m2 t t', mid = m1 ++ Call.kfree a :: m2 ∧ run L s2 m1 = .ok t ∧
          kfree L t a = .ok t' ∧ countOf L t' a = some 0 := by
  obtain ⟨l1, hinv1⟩ := Inv.run_ok (kinit_inv L m s0 hinit) hpre
  have key : ∀ {s s' : Kmem} {l : List Nat}, Inv L s l → kalloc L s = .ok (a, s') →
      ∃ xs, l = a :: xs ∧ Inv L s' xs := by
    intro s s' l hinv hk
    cases l with
    | nil =>
      rw [hinv.kalloc_nil] at hk
      exact absurd (Prod.mk.inj (Except.ok.inj hk)).1.symm ha
    | cons x xs =>
      obtain ⟨t, hk', hinv', -⟩ := hinv.kalloc_cons
      rw [hk'] at hk
      obtain ⟨e1, e2⟩ := Prod.mk.inj (Except.ok.inj hk)
      subst e1; subst e2
      exact ⟨xs, rfl, hinv'⟩
  obtain ⟨xs1, e1, hinv2⟩ := key hinv1 hfirst
  subst e1
  have hnot : a ∉ xs1 := FreeList.head_not_mem hinv1.1
  have hr : InRange L a := hinv1.2.1 a (List.mem_cons_self a xs1)
  refine ⟨((hinv1.counts a hr).1).mp (List.mem_cons_self a xs1), ?_⟩
  intro mid s3 s4 hmid hsecond
  obtain ⟨l3, hinv3⟩ := Inv.run_ok hinv2 hmid
  obtain ⟨xs3, e3, -⟩ := key hinv3 hsecond
  subst e3
  obtain ⟨m1, m2, t, t', e, hr1, hk, h0⟩ :=
    Inv.reappear hinv2 hnot hmid hinv3 (List.mem_cons_self a xs3)
  exact ⟨m1, m2, t, t', e, hr1, hk, countOf_eq_some.mpr ⟨hr.index, h0⟩⟩

theorem C2_no_double_allocation_witness :
    ∃ s0 s2 s3 s4, kinit exLayout (boot zeroMem) = .ok s0 ∧
      kalloc exLayout s0 = .ok (16384, s2) ∧
      run exLayout s2 [Call.kfree 16384] = .ok s3 ∧
      kalloc exLayout s3 = .ok (16384, s4) ∧
      countOf exLayout s0 16384 = some 0 ∧
      ∃ m1 m2 t t', [Call.kfree 16384] = m1 ++ Call.kfree 16384 :: m2 ∧
        run exLayout s2 m1 = .ok t ∧ kfree exLayout t 16384 = .ok t' ∧
        countOf exLayout t' 16384 = some 0 := by
  obtain ⟨s0, h0, -, -⟩ := kinit_spec exLayout zeroMem
  have hinv := kinit_inv exLayout zeroMem s0 h0
  rw [frames_exLayout] at hinv
  obtain ⟨s2, s3, s4, hk2, hk3, hk4, -, -, -⟩ := hinv.alloc_free_alloc
  have hmid := run_single_kfree hk3
  have h := C2_no_double_allocation exLayout zeroMem s0 s0 s2 [] 16384 h0 rfl hk2 (by decide)
  exact ⟨s0, s2, s3, s4, h0, hk2, hmid, hk4, h.1, h.2 [Call.kfree 16384] s3 s4 hmid hk4⟩

/-- C4: after `kinit` from the boot state, with `N` the number of page-aligned
frames `p` with `PGROUNDUP(end) ≤ p` and `p + 4096 ≤ PHYSTOP` (the length of any
repetition-free enumeration `fs` of them), the first `N` consecutive `kalloc`
calls return `N` non-zero, pairwise distinct addresses of frames in that range,
and the next `kalloc` returns 0. -/
theorem C4_exhaustion (L : Layout) (m : Nat → Nat) (s0 : Kmem) (fs : List Nat)
    (hinit : kinit L (boot m) = .ok s0) (hnd : fs.Nodup) (hfs : ∀ p, p ∈ fs ↔ InRange L p) :
    ∃ rs s1, kallocN L fs.length s0 = .ok (rs, s1) ∧ rs.length = fs.length ∧
      (∀ r ∈ rs, r ≠ 0 ∧ InRange L r) ∧ rs.Nodup ∧ kalloc L s1 = .ok (0, s1) := by
  have hinv := kinit_inv L m s0 hinit
  have hnd' : (frames L).reverse.Nodup := FreeList.nodup hinv.1
  have hperm : fs.Perm (frames L).reverse :=
    (List.perm_ext_iff_of_nodup hnd hnd').mpr (fun p => by
      rw [hfs p, List.mem_reverse, mem_frames])
  obtain ⟨s1, hk, hinv1⟩ := Inv.kallocN_ok hinv
  rw [← hperm.length_eq] at hk
  refine ⟨(frames L).reverse, s1, hk, hperm.length_eq.symm, ?_, hnd', hinv1.kalloc_nil⟩
  intro r hr
  have hin := hinv.2.1 r hr
  exact ⟨hin.ne_zero, hin⟩

theorem frames_nodup (L : Layout) : (frames L).Nodup := by
  obtain ⟨s, -, -, hfl⟩ := kinit_spec L zeroMem
  exact List.nodup_reverse.mp (FreeList.nodup hfl)

theorem C4_exhaustion_witness :
    ∃ s0, kinit exLayout (boot zeroMem) = .ok s0 ∧
      ∃ rs s1, kallocN exLayout (frames exLayout).length s0 = .ok (rs, s1) ∧
        rs.length = (frames exLayout).length ∧
        (∀ r ∈ rs, r ≠ 0 ∧ InRange exLayout r) ∧ rs.Nodup ∧
        kalloc exLayout s1 = .ok (0, s1) := by
  obtain ⟨s0, h0, -, -⟩ := kinit_spec exLayout zeroMem
  exact ⟨s0, h0, C4_exhaustion exLayout zeroMem s0 (frames exLayout) h0
    (frames_nodup exLayout) (fun _ => mem_frames)⟩

/-! ## Allocate: the fatal path -/

theorem kalloc_exBeyond : kalloc exLayout exBeyond = .error .outOfBounds := by
  unfold kalloc
  simp [exBeyond, exLayout, toInt32, inTable, PGSIZE]

theorem kalloc_exWrapped : kalloc exLayout exWrapped = .error .panic := by
  unfold kalloc
  simp [exWrapped, exLayout, toInt32, inTable, PGSIZE]

/-- C11 fails as stated, on free lists whose head has no entry in the table.
With the head at `PHYSTOP` the count of the head frame is not 0 (there is none),
yet `kalloc` does not take the fatal path: it reads the table out of bounds.
With the head at `2 ^ 44` the frame index does not fit an `int`; `kalloc` looks
at the entry of frame 0 and takes the fatal path although the head frame has no
count different from 0. -/
theorem C11_counterexample :
    (FreeList exBeyond.mem exBeyond.freelist [20480] ∧
      ¬ (kalloc exLayout exBeyond = .error .panic ↔
          countOf exLayout exBeyond 20480 ≠ some 0)) ∧
    (FreeList exWrapped.mem exWrapped.freelist [2 ^ 44] ∧
      ¬ (kalloc exLayout exWrapped = .error .panic ↔
          ∃ v, countOf exLayout exWrapped (2 ^ 44) = some v ∧ v ≠ 0)) := by
  refine ⟨⟨by decide, ?_⟩, ⟨by decide, ?_⟩⟩
  · rw [kalloc_exBeyond]
    intro h
    have h1 : countOf exLayout exBeyond 20480 ≠ some 0 := by decide
    exact absurd (h.mpr h1) (by simp)
  · rw [kalloc_exWrapped]
    intro h
    obtain ⟨v, hv, -⟩ := h.mp rfl
    have h1 : countOf exLayout exWrapped (2 ^ 44) = none := by decide
    rw [h1] at hv
    exact absurd hv (by simp)

/-- C11 (amended): when the free list is non-empty and its head frame `r` has an
entry `v` in the reference-count table, `kalloc` takes the fatal path exactly
when `v` is not 0. -/
theorem C11_kalloc_fatal_iff (L : Layout) (st : Kmem) (r : Nat) (l : List Nat) (v : Int)
    (hfl : FreeList st.mem st.freelist (r :: l)) (hv : countOf L st r = some v) :
    kalloc L st = .error .panic ↔ v ≠ 0 := by
  obtain ⟨hi, hc⟩ := countOf_eq_some.mp hv
  have hhead : st.freelist = r := hfl.1
  rw [kalloc_of_index L st (by rw [hhead]; exact hfl.2.1) (by rw [hhead]; exact hi), hhead, hc]
  constructor
  · intro h
    by_contra h0
    rw [if_neg (not_not.mpr h0)] at h
    exact absurd h (by simp)
  · intro h
    rw [if_pos h]

theorem C11_kalloc_fatal_iff_witness :
    kalloc exLayout exCorrupt = .error .panic ↔ (1 : Int) ≠ 0 :=
  C11_kalloc_fatal_iff exLayout exCorrupt 8192 [] 1 (by decide) (by decide)

/-! ## Add-owner -/

/-- At `pa = PHYSTOP` the range test `pa > PHYSTOP` lets the call through and the
index `PHYSTOP / PGSIZE` is the first one past the table. -/
theorem increment_page_ref_at_phystop (L : Layout) (st : Kmem) :
    increment_page_ref L st L.PHYSTOP = .error .outOfBounds := by
  have hnot : ¬ inTable L (toInt32 (L.PHYSTOP / PGSIZE)) :=
    fun h => Nat.lt_irrefl _ (toInt32_inTable L (le_refl _) h)
  unfold increment_page_ref
  simp only
  rw [if_neg (by omega), if_pos hnot]

/-- C12 (behaviour of the code): an address below `end` is not rejected when the
table holds a count of at least 1 for it (frame 0 with count 1 is raised to 2),
and at `pa = PHYSTOP` the call does not panic either (it reads the table out of
bounds). -/
theorem C12_increment_page_ref_range_gaps :
    (0 < exLayout.kend ∧
      ∃ s', increment_page_ref exLayout exKernel 0 = .ok s' ∧ s'.ref_count 0 = 2) ∧
    (∀ st, increment_page_ref exLayout st exLayout.PHYSTOP ≠ .error .panic) := by
  refine ⟨⟨by decide, ?_⟩, ?_⟩
  · let rc := Function.update exKernel.ref_count (0 / PGSIZE)
      (exKernel.ref_count (0 / PGSIZE) + 1)
    refine ⟨{ exKernel with ref_count := rc }, ?_, ?_⟩
    · rw [increment_page_ref_of_index exLayout exKernel 0 (by decide) (by decide),
        if_neg (by decide), if_neg (by decide)]
    · decide
  · intro st
    rw [increment_page_ref_at_phystop]
    simp

/-- C13: for an address `pa` in `[end, PHYSTOP)` whose table entry is 0,
`increment_page_ref` takes the fatal path (so no count is raised); in particular
this holds for every frame on the free list of a state reached after `kinit`. -/
theorem C13_add_owner_free_frame_fatal (L : Layout) :
    (∀ (st : Kmem) (pa : Nat), L.kend ≤ pa → pa < L.PHYSTOP → countOf L st pa = some 0 →
      increment_page_ref L st pa = .error .panic) ∧
    (∀ (m : Nat → Nat) (s0 s : Kmem) (cs : List Call) (l : List Nat) (a : Nat),
      kinit L (boot m) = .ok s0 → run L s0 cs = .ok s → FreeList s.mem s.freelist l →
      a ∈ l → increment_page_ref L s a = .error .panic) := by
  have first : ∀ (st : Kmem) (pa : Nat), pa < L.PHYSTOP → countOf L st pa = some 0 →
      increment_page_ref L st pa = .error .panic := by
    intro st pa hhi h0
    obtain ⟨hi, hc⟩ := countOf_eq_some.mp h0
    rw [increment_page_ref_of_index L st pa (le_of_lt hhi) hi, if_pos (by omega)]
  refine ⟨fun st pa _ hhi h0 => first st pa hhi h0, ?_⟩
  intro m s0 s cs l a hinit hrun hfl ha
  obtain ⟨l', hinv⟩ := Inv.run_ok (kinit_inv L m s0 hinit) hrun
  have e : l = l' := FreeList.unique hfl hinv.1
  subst e
  have hr : InRange L a := hinv.2.1 a ha
  exact first s a hr.manageable.2.2 ((hinv.counts a hr).1.mp ha)

theorem C13_add_owner_free_frame_fatal_witness :
    increment_page_ref exLayout exFree 8192 = .error .panic ∧
    ∃ s0, kinit exLayout (boot zeroMem) = .ok s0 ∧
      increment_page_ref exLayout s0 16384 = .error .panic := by
  refine ⟨(C13_add_owner_free_frame_fatal exLayout).1 exFree 8192 (by decide) (by decide)
    (by decide), ?_⟩
  obtain ⟨s0, h0, -, hfl⟩ := kinit_spec exLayout zeroMem
  rw [frames_exLayout] at hfl
  exact ⟨s0, h0, (C13_add_owner_free_frame_fatal exLayout).2 zeroMem s0 s0 [] _ 16384 h0 rfl
    hfl (by decide)⟩

/-- C14 fails as stated at the largest count: with `ref_count[2] = INT_MAX` the
increment cannot produce `INT_MAX + 1` in an `int`; the call does not return
normally. -/
theorem C14_counterexample :
    Manageable exLayout 8192 ∧ countOf exLayout (exOwned INT_MAX) 8192 = some INT_MAX ∧
      1 ≤ INT_MAX ∧ increment_page_ref exLayout (exOwned INT_MAX) 8192 = .error .overflow := by
  refine ⟨by decide, by decide, by decide, ?_⟩
  rw [increment_page_ref_of_index exLayout (exOwned INT_MAX) 8192 (by decide) (by decide),
    if_neg (by decide), if_pos (by decide)]

/-- C14 (amended): for a page-aligned `pa` in `[end, PHYSTOP)` whose count is `k`
with `1 ≤ k < INT_MAX`, `increment_page_ref` returns normally with
`ref_count[pa/4096] = k + 1`, every other count unchanged, and the free-list
head and memory (hence the free list) unchanged. -/
theorem C14_add_owner_increments (L : Layout) (st : Kmem) (pa : Nat) (k : Int)
    (hm : Manageable L pa) (hk : countOf L st pa = some k) (h1 : 1 ≤ k) (hmax : k < INT_MAX) :
    ∃ s', increment_page_ref L st pa = .ok s' ∧ countOf L s' pa = some (k + 1) ∧
      (∀ i, i ≠ pa / PGSIZE → s'.ref_count i = st.ref_count i) ∧
      s'.freelist = st.freelist ∧ s'.mem = st.mem ∧
      (∀ l, FreeList s'.mem s'.freelist l ↔ FreeList st.mem st.freelist l) := by
  obtain ⟨hi, hc⟩ := countOf_eq_some.mp hk
  let rc := Function.update st.ref_count (pa / PGSIZE) (st.ref_count (pa / PGSIZE) + 1)
  refine ⟨{ st with ref_count := rc }, ?_, ?_, ?_, rfl, rfl, fun l => Iff.rfl⟩
  · rw [increment_page_ref_of_index L st pa (le_of_lt hm.2.2) hi, if_neg (by omega),
      if_neg (by omega)]
  · refine countOf_eq_some.mpr ⟨hi, ?_⟩
    show Function.update st.ref_count (pa / PGSIZE) _ (pa / PGSIZE) = k + 1
    rw [Function.update_same, hc]
  · intro i hne
    exact Function.update_noteq hne _ _

theorem C14_add_owner_increments_witness :
    ∃ s', increment_page_ref exLayout (exOwned 1) 8192 = .ok s' ∧
      countOf exLayout s' 8192 = some (1 + 1) ∧
      (∀ i, i ≠ 8192 / PGSIZE → s'.ref_count i = (exOwned 1).ref_count i) ∧
      s'.freelist = (exOwned 1).freelist ∧ s'.mem = (exOwned 1).mem ∧
      (∀ l, FreeList s'.mem s'.freelist l ↔
        FreeList (exOwned 1).mem (exOwned 1).freelist l) :=
  C14_add_owner_increments exLayout (exOwned 1) 8192 1 (by decide) (by decide) (by decide)
    (by decide)

/-! ## Sharing and reuse of a frame -/

theorem Inv.kalloc_ok {L : Layout} {s s' : Kmem} {l : List Nat} {a : Nat}
    (h : Inv L s l) (hk : kalloc L s = .ok (a, s')) (ha : a ≠ 0) :
    ∃ xs, l = a :: xs ∧ Inv L s' xs ∧
      s'.ref_count = Function.update s.ref_count (a / PGSIZE) 1 := by
  cases l with
  | nil =>
    rw [h.kalloc_nil] at hk
    exact absurd (Prod.mk.inj (Except.ok.inj hk)).1.symm ha
  | cons x xs =>
    obtain ⟨t, hk', hinv', hrc⟩ := h.kalloc_cons
    rw [hk'] at hk
    obtain ⟨e1, e2⟩ := Prod.mk.inj (Except.ok.inj hk)
    subst e1; subst e2
    exact ⟨xs, rfl, hinv', hrc⟩

theorem FreeList.head_eq {m m' : Nat → Nat} {h h' : Nat} {l : List Nat}
    (h1 : FreeList m h l) (h2 : FreeList m' h' l) : h = h' := by
  cases l with
  | nil =>
    have e1 : h = 0 := h1
    have e2 : h' = 0 := h2
    rw [e1, e2]
  | cons x xs => exact h1.1.trans h2.1.symm

theorem kalloc_pop (L : Layout) (st : Kmem) (r : Nat) (l : List Nat)
    (hfl : FreeList st.mem st.freelist (r :: l)) (hi : r / PGSIZE < L.PHYSTOP / PGSIZE)
    (hc : st.ref_count (r / PGSIZE) = 0) :
    ∃ s', kalloc L st = .ok (r, s') ∧
      s'.ref_count = Function.update st.ref_count (r / PGSIZE) 1 ∧
      s'.mem = memset st.mem r 5 PGSIZE ∧ FreeList s'.mem s'.freelist l := by
  have hhead : st.freelist = r := hfl.1
  have hnot : r ∉ l := FreeList.head_not_mem hfl
  have hprops := FreeList.mem_props hfl
  refine ⟨{ ref_count := Function.update st.ref_count (r / PGSIZE) 1,
            freelist := load64 st.mem r,
            mem := memset st.mem r 5 PGSIZE }, ?_, rfl, rfl, ?_⟩
  · rw [kalloc_of_index L st (by rw [hhead]; exact hfl.2.1) (by rw [hhead]; exact hi),
      hhead, if_neg (not_not.mpr hc)]
  · show FreeList (memset st.mem r 5 PGSIZE) (load64 st.mem r) l
    refine FreeList.congr ?_ hfl.2.2.2.2
    intro y hy
    have hy' := hprops y (List.mem_cons_of_mem r hy)
    have hne : y ≠ r := fun e => hnot (e ▸ hy)
    exact load64_memset_other _ _ _ _ _ (aligned_apart hy'.2.2 hfl.2.2.2.1 hne)

/-- C15: for a frame `a` returned by `kalloc` in a state reached after `kinit`,
`increment_page_ref(a)` raises the count to 2; the first `kfree(a)` then returns
normally leaving the count at 1 and the free list `xs` without `a`; the second
`kfree(a)` returns normally leaving the count at 0 and the free list `a :: xs`. -/
theorem C15_two_releases (L : Layout) (m : Nat → Nat) (s0 s s1 : Kmem) (cs : List Call)
    (a : Nat) (hinit : kinit L (boot m) = .ok s0) (hrun : run L s0 cs = .ok s)
    (hk : kalloc L s = .ok (a, s1)) (ha : a ≠ 0) :
    ∃ s2 s3 s4 xs, increment_page_ref L s1 a = .ok s2 ∧ countOf L s2 a = some 2 ∧
      kfree L s2 a = .ok s3 ∧ countOf L s3 a = some 1 ∧
      FreeList s3.mem s3.freelist xs ∧ a ∉ xs ∧
      kfree L s3 a = .ok s4 ∧ countOf L s4 a = some 0 ∧
      FreeList s4.mem s4.freelist (a :: xs) := by
  obtain ⟨l, hinv⟩ := Inv.run_ok (kinit_inv L m s0 hinit) hrun
  obtain ⟨xs, e, hinv1, hrc1⟩ := hinv.kalloc_ok hk ha
  subst e
  have hr : InRange L a := hinv.2.1 a (List.mem_cons_self a xs)
  have hnot : a ∉ xs := FreeList.head_not_mem hinv.1
  have hm := hr.manageable
  have hi := hr.index
  have hc1 : s1.ref_count (a / PGSIZE) = 1 := by rw [hrc1, Function.update_same]
  let rc2 := Function.update s1.ref_count (a / PGSIZE) (s1.ref_count (a / PGSIZE) + 1)
  have hk2 : increment_page_ref L s1 a = .ok { s1 with ref_count := rc2 } := by
    rw [increment_page_ref_of_index L s1 a (le_of_lt hm.2.2) hi, if_neg (by omega),
      if_neg (by rw [hc1]; decide)]
  have hinv2 := hinv1.incr_step hk2
  have hc2 : rc2 (a / PGSIZE) = 2 := by
    show Function.update s1.ref_count (a / PGSIZE) _ (a / PGSIZE) = 2
    rw [Function.update_same, hc1]; rfl
  let rc3 := Function.update rc2 (a / PGSIZE) (rc2 (a / PGSIZE) - 1)
  have hk3 : kfree L { s1 with ref_count := rc2 } a = .ok { s1 with ref_count := rc3 } := by
    rw [kfree_of_index L _ a hm hi]
    show (if rc2 (a / PGSIZE) < 1 then _ else if rc2 (a / PGSIZE) - 1 > 0 then _ else _) = _
    rw [if_neg (by omega), if_pos (by omega)]
  have hc3 : rc3 (a / PGSIZE) = 1 := by
    show Function.update rc2 (a / PGSIZE) _ (a / PGSIZE) = 1
    rw [Function.update_same, hc2]; rfl
  have hinv3 : Inv L { s1 with ref_count := rc3 } xs := by
    obtain ⟨-, -, hcase⟩ := hinv2.kfree_step hk3
    rcases hcase with ⟨h1, -, -⟩ | ⟨-, -, h3⟩
    · have : rc2 (a / PGSIZE) = 1 := h1
      omega
    · exact h3
  obtain ⟨s4, hk4, hrc4, -, hfl4⟩ :=
    kfree_push L { s1 with ref_count := rc3 } a xs hm hi hc3 hinv3.1 hnot
  refine ⟨_, _, s4, xs, hk2, countOf_eq_some.mpr ⟨hi, hc2⟩, hk3,
    countOf_eq_some.mpr ⟨hi, hc3⟩, hinv3.1, hnot, hk4, countOf_eq_some.mpr ⟨hi, ?_⟩, hfl4⟩
  rw [hrc4, Function.update_same]

theorem C15_two_releases_witness :
    ∃ s0 s1 s2 s3 s4 xs, kinit exLayout (boot zeroMem) = .ok s0 ∧
      kalloc exLayout s0 = .ok (16384, s1) ∧
      increment_page_ref exLayout s1 16384 = .ok s2 ∧ countOf exLayout s2 16384 = some 2 ∧
      kfree exLayout s2 16384 = .ok s3 ∧ countOf exLayout s3 16384 = some 1 ∧
      FreeList s3.mem s3.freelist xs ∧ 16384 ∉ xs ∧
      kfree exLayout s3 16384 = .ok s4 ∧ countOf exLayout s4 16384 = some 0 ∧
      FreeList s4.mem s4.freelist (16384 :: xs) := by
  obtain ⟨s0, h0, -, -⟩ := kinit_spec exLayout zeroMem
  have hinv := kinit_inv exLayout zeroMem s0 h0
  rw [frames_exLayout] at hinv
  obtain ⟨s1, hk, -, -⟩ := hinv.kalloc_cons
  obtain ⟨s2, s3, s4, xs, h⟩ :=
    C15_two_releases exLayout zeroMem s0 s0 s1 [] 16384 h0 rfl hk (by decide)
  exact ⟨s0, s1, s2, s3, s4, xs, h0, hk, h⟩

theorem load64_memset_same_ne_zero (m : Nat → Nat) (d c n : Nat) (hn : 0 < n)
    (hc : c % 256 ≠ 0) : load64 (memset m d c n) d ≠ 0 := by
  have h0 : memset m d c n d = c % 256 := by
    unfold memset
    rw [if_pos (by omega)]
  unfold load64
  rw [h0]
  omega

/-- C16 fails as stated: in the state where frame 8192 is the only frame on the
free list while its count is 1, `kfree(8192)` followed by `kalloc` returns 8192,
but afterwards the free list is no longer what it was (the frame's link was
overwritten, so the chain from the head does not end at 8192). -/
theorem C16_counterexample :
    Manageable exLayout 8192 ∧ countOf exLayout exCorrupt 8192 = some 1 ∧
      FreeList exCorrupt.mem exCorrupt.freelist [8192] ∧
      ∃ s1 s2, kfree exLayout exCorrupt 8192 = .ok s1 ∧
        kalloc exLayout s1 = .ok (8192, s2) ∧ ¬ FreeList s2.mem s2.freelist [8192] := by
  have hm : Manageable exLayout 8192 := by decide
  have hi : 8192 / PGSIZE < exLayout.PHYSTOP / PGSIZE := by decide
  refine ⟨hm, by decide, by decide, ?_⟩
  let rc1 := Function.update exCorrupt.ref_count (8192 / PGSIZE)
    (exCorrupt.ref_count (8192 / PGSIZE) - 1)
  let m1 := store64 (memset exCorrupt.mem 8192 1 PGSIZE) 8192 exCorrupt.freelist
  have hk1 : kfree exLayout exCorrupt 8192 =
      .ok { ref_count := rc1, freelist := 8192, mem := m1 } := by
    rw [kfree_of_index exLayout exCorrupt 8192 hm hi, if_neg (by decide), if_neg (by decide)]
  have hk2 : kalloc exLayout { ref_count := rc1, freelist := 8192, mem := m1 } =
      .ok (8192, { ref_count := Function.update rc1 (8192 / PGSIZE) 1,
                   freelist := load64 m1 8192,
                   mem := memset m1 8192 5 PGSIZE }) := by
    have hrc : rc1 (8192 / PGSIZE) = 0 := by decide
    rw [kalloc_of_index exLayout _ (by decide) hi]
    dsimp only
    rw [if_neg (not_not.mpr hrc)]
  refine ⟨_, _, hk1, hk2, ?_⟩
  intro h
  have h1 : load64 m1 8192 = 8192 := h.1
  have h2 : load64 (memset m1 8192 5 PGSIZE) 8192 = 0 := h.2.2.2.2
  exact load64_memset_same_ne_zero m1 8192 5 PGSIZE (by decide) (by decide) h2

/-- C16 (amended): for an in-range page-aligned frame `a` whose count is exactly
1 and which is not on the free list `l`, `kfree(a)` immediately followed by
`kalloc` returns exactly `a`, with the count of `a` equal to 1, and the free
list is again `l`, with the same head pointer as before the release. -/
theorem C16_lifo_reuse (L : Layout) (st : Kmem) (a : Nat) (l : List Nat)
    (hm : Manageable L a) (h1 : countOf L st a = some 1)
    (hfl : FreeList st.mem st.freelist l) (hnot : a ∉ l) :
    ∃ s1 s2, kfree L st a = .ok s1 ∧ kalloc L s1 = .ok (a, s2) ∧
      countOf L s2 a = some 1 ∧ s2.freelist = st.freelist ∧
      FreeList s2.mem s2.freelist l := by
  obtain ⟨hi, hc⟩ := countOf_eq_some.mp h1
  obtain ⟨s1, hk1, hrc1, -, hfl1⟩ := kfree_push L st a l hm hi hc hfl hnot
  have hc1 : s1.ref_count (a / PGSIZE) = 0 := by rw [hrc1, Function.update_same]
  obtain ⟨s2, hk2, hrc2, -, hfl2⟩ := kalloc_pop L s1 a l hfl1 hi hc1
  refine ⟨s1, s2, hk1, hk2, countOf_eq_some.mpr ⟨hi, ?_⟩, FreeList.head_eq hfl2 hfl, hfl2⟩
  rw [hrc2, Function.update_same]

theorem C16_lifo_reuse_witness :
    ∃ s1 s2, kfree exLayout (exOwned 1) 8192 = .ok s1 ∧ kalloc exLayout s1 = .ok (8192, s2) ∧
      countOf exLayout s2 8192 = some 1 ∧ s2.freelist = (exOwned 1).freelist ∧
      FreeList s2.mem s2.freelist [] :=
  C16_lifo_reuse exLayout (exOwned 1) 8192 [] (by decide) (by decide) (by decide)
    (by decide)

/-! ## Filler bytes -/

theorem kalloc_ok_mem (L : Layout) (st s' : Kmem) (r : Nat)
    (hk : kalloc L st = .ok (r, s')) (hr : r ≠ 0) :
    s'.mem = memset st.mem r 5 PGSIZE := by
  unfold kalloc at hk
  simp only at hk
  split at hk
  · split at hk
    · exact absurd hk (by simp)
    · split at hk
      · exact absurd hk (by simp)
      · obtain ⟨e1, e2⟩ := Prod.mk.inj (Except.ok.inj hk)
        rw [← e2, ← e1]
  · rename_i h0
    have e1 := (Prod.mk.inj (Except.ok.inj hk)).1
    exact absurd (e1.symm.trans (not_not.mp h0)) hr

/-- C17: whenever `kalloc` returns a non-zero address `r`, each of the 4096 bytes
of the frame at `r` (the first eight, which held the free-list link, included)
is 5 in the returned state; and in a frame whose count `kfree` brought to 0 the
bytes after the link are 1, different from the byte 5 of an allocated frame. -/
theorem C17_filler_bytes (L : Layout) (st s' : Kmem) (r : Nat)
    (hk : kalloc L st = .ok (r, s')) (hr : r ≠ 0) :
    (∀ i, i < PGSIZE → s'.mem (r + i) = 5) ∧
    (∀ (st2 s2 : Kmem) (pa : Nat), kfree L st2 pa = .ok s2 → countOf L s2 pa = some 0 →
      ∀ i, 8 ≤ i → i < PGSIZE → s2.mem (pa + i) = 1 ∧ s2.mem (pa + i) ≠ s'.mem (r + i)) := by
  have hmem := kalloc_ok_mem L st s' r hk hr
  have hfive : ∀ i, i < PGSIZE → s'.mem (r + i) = 5 := by
    intro i hi
    rw [hmem]
    unfold memset
    rw [if_pos (by omega)]
  refine ⟨hfive, ?_⟩
  intro st2 s2 pa hk2 h0 i h8 hi
  obtain ⟨hm, hidx, hge⟩ := kfree_ok_inv L st2 s2 pa hk2
  obtain ⟨-, hc0⟩ := countOf_eq_some.mp h0
  rw [kfree_of_index L st2 pa hm hidx, if_neg (by omega)] at hk2
  have hone : s2.mem (pa + i) = 1 := by
    by_cases h2 : st2.ref_count (pa / PGSIZE) - 1 > 0
    · rw [if_pos h2] at hk2
      have e := (Except.ok.inj hk2).symm
      subst e
      have : Function.update st2.ref_count (pa / PGSIZE) (st2.ref_count (pa / PGSIZE) - 1)
          (pa / PGSIZE) = 0 := hc0
      rw [Function.update_same] at this
      omega
    · rw [if_neg h2] at hk2
      have e := (Except.ok.inj hk2).symm
      subst e
      show store64 (memset st2.mem pa 1 PGSIZE) pa st2.freelist (pa + i) = 1
      unfold store64
      rw [if_neg (by omega)]
      unfold memset
      rw [if_pos (by omega)]
  refine ⟨hone, ?_⟩
  rw [hone, hfive i hi]
  decide

theorem C17_filler_bytes_witness :
    ∃ s', kalloc exLayout exFree = .ok (8192, s') ∧
      (∀ i, i < PGSIZE → s'.mem (8192 + i) = 5) ∧
      (∀ (st2 s2 : Kmem) (pa : Nat), kfree exLayout st2 pa = .ok s2 →
        countOf exLayout s2 pa = some 0 →
        ∀ i, 8 ≤ i → i < PGSIZE →
          s2.mem (pa + i) = 1 ∧ s2.mem (pa + i) ≠ s'.mem (8192 + i)) := by
  obtain ⟨s', hk, -, -, -⟩ :=
    kalloc_pop exLayout exFree 8192 [] (by decide) (by decide) (by decide)
  exact ⟨s', hk, C17_filler_bytes exLayout exFree s' 8192 hk (by decide)⟩

/-! ## Counts without add-owner -/

theorem kalloc_ok_counts (L : Layout) (st s' : Kmem) (r : Nat)
    (hk : kalloc L st = .ok (r, s')) :
    s' = st ∨ ∃ j, s'.ref_count = Function.update st.ref_count j 1 := by
  unfold kalloc at hk
  simp only at hk
  split at hk
  · split at hk
    · exact absurd hk (by simp)
    · split at hk
      · exact absurd hk (by simp)
      · right
        have e2 := (Prod.mk.inj (Except.ok.inj hk)).2
        exact ⟨_, by rw [← e2]⟩
  · left
    exact (Prod.mk.inj (Except.ok.inj hk)).2.symm

theorem step_allocOrFree_le_one {L : Layout} {st st' : Kmem} {c : Call} {r : Nat}
    (hc : c.allocOrFree) (hle : ∀ i, st.ref_count i ≤ 1)
    (hs : step L st c = .ok (r, st')) : ∀ i, st'.ref_count i ≤ 1 := by
  cases c with
  | kalloc =>
    have hk : kalloc L st = .ok (r, st') := hs
    rcases kalloc_ok_counts L st st' r hk with e | ⟨j, e⟩
    · rw [e]; exact hle
    · intro i
      rw [e]
      by_cases hij : i = j
      · rw [hij, Function.update_same]
      · rw [Function.update_noteq hij]; exact hle i
  | kfree pa =>
    have hs : (match kfree L st pa with
      | .ok s' => (.ok (0, s') : Except Fault (Nat × Kmem))
      | .error e => .error e) = .ok (r, st') := hs
    split at hs
    · rename_i t hk
      have e := (Prod.mk.inj (Except.ok.inj hs)).2
      subst e
      obtain ⟨hm, hi, hge⟩ := kfree_ok_inv L st t pa hk
      rw [kfree_of_index L st pa hm hi, if_neg (by omega)] at hk
      have hrc : t.ref_count = Function.update st.ref_count (pa / PGSIZE)
          (st.ref_count (pa / PGSIZE) - 1) := by
        split at hk
        · rw [← Except.ok.inj hk]
        · rw [← Except.ok.inj hk]
      intro i
      rw [hrc]
      by_cases hij : i = pa / PGSIZE
      · rw [hij, Function.update_same]
        have := hle (pa / PGSIZE)
        omega
      · rw [Function.update_noteq hij]; exact hle i
    · exact absurd hs (by simp)
  | increment_page_ref pa => exact absurd hc (by simp [Call.allocOrFree])

theorem run_allocOrFree_le_one {L : Layout} :
    ∀ {cs : List Call} {s s' : Kmem}, (∀ c ∈ cs, c.allocOrFree) → (∀ i, s.ref_count i ≤ 1) →
      run L s cs = .ok s' → ∀ i, s'.ref_count i ≤ 1
  | [], _, _, _, hle, hr => by
    have e := Except.ok.inj hr
    subst e
    exact hle
  | c :: cs, _, _, hcs, hle, hr => by
    obtain ⟨r, t, hst, hrun⟩ := run_cons_ok hr
    have hle' := step_allocOrFree_le_one (hcs c (List.mem_cons_self c cs)) hle hst
    exact run_allocOrFree_le_one (fun d hd => hcs d (List.mem_cons_of_mem c hd)) hle' hrun

/-- C18: in every state reached from the boot state by `kinit` followed by
normally returning `kalloc` and `kfree` calls only, every entry of the count
table is 0 or 1; and from any state whose entries are at most 1, a `kalloc` or
`kfree` call leaves all entries at most 1 (only `increment_page_ref` can take a
count above 1). -/
theorem C18_counts_zero_or_one (L : Layout) :
    (∀ (m : Nat → Nat) (s0 s : Kmem) (cs : List Call), kinit L (boot m) = .ok s0 →
      (∀ c ∈ cs, c.allocOrFree) → run L s0 cs = .ok s →
      ∀ i, s.ref_count i = 0 ∨ s.ref_count i = 1) ∧
    (∀ (st st' : Kmem) (c : Call) (r : Nat), c.allocOrFree → (∀ i, st.ref_count i ≤ 1) →
      step L st c = .ok (r, st') → ∀ i, st'.ref_count i ≤ 1) := by
  refine ⟨?_, fun st st' c r hc hle hs => step_allocOrFree_le_one hc hle hs⟩
  intro m s0 s cs hinit hcs hrun i
  obtain ⟨s0', hk, hz, -⟩ := kinit_spec L m
  rw [hinit] at hk
  have e : s0 = s0' := Except.ok.inj hk
  subst e
  obtain ⟨l, hinv⟩ := Inv.run_ok (kinit_inv L m s0 hinit) hrun
  have h1 := run_allocOrFree_le_one hcs (fun j => by rw [hz j]; decide) hrun i
  have h0 := hinv.2.2.2 i
  omega

theorem C18_counts_zero_or_one_witness :
    ∃ s0 s, kinit exLayout (boot zeroMem) = .ok s0 ∧ run exLayout s0 [Call.kalloc] = .ok s ∧
      ∀ i, s.ref_count i = 0 ∨ s.ref_count i = 1 := by
  obtain ⟨s0, h0, -, -⟩ := kinit_spec exLayout zeroMem
  have hinv := kinit_inv exLayout zeroMem s0 h0
  rw [frames_exLayout] at hinv
  obtain ⟨s, hk, -, -⟩ := hinv.kalloc_cons
  have hrun := run_single_kalloc hk
  refine ⟨s0, s, h0, hrun, (C18_counts_zero_or_one exLayout).1 zeroMem s0 s [Call.kalloc] h0 ?_
    hrun⟩
  intro c hc
  rw [List.mem_singleton.mp hc]
  trivial

/-! ## Allocate/release cycles leak nothing -/

theorem Inv.cycle_ok {L : Layout} {s : Kmem} {x : Nat} {xs : List Nat}
    (h : Inv L s (x :: xs)) :
    ∃ s1 s2, kalloc L s = .ok (x, s1) ∧ kfree L s1 x = .ok s2 ∧ cycle L s = .ok s2 ∧
      s2.ref_count = s.ref_count ∧ s2.freelist = s.freelist ∧ Inv L s2 (x :: xs) := by
  have hx : InRange L x := h.2.1 x (List.mem_cons_self x xs)
  have hnot : x ∉ xs := FreeList.head_not_mem h.1
  have hc0 : s.ref_count (x / PGSIZE) = 0 := (h.2.2.1 x hx).mp (List.mem_cons_self x xs)
  obtain ⟨s1, hk1, hinv1, hrc1⟩ := h.kalloc_cons
  have hc1 : s1.ref_count (x / PGSIZE) = 1 := by rw [hrc1, Function.update_same]
  obtain ⟨s2, hk2, hrc2, hhead2, -⟩ :=
    kfree_push L s1 x xs hx.manageable hx.index hc1 hinv1.1 hnot
  have hinv2 : Inv L s2 (x :: xs) := by
    obtain ⟨-, -, hcase⟩ := hinv1.kfree_step hk2
    rcases hcase with ⟨-, -, hinv⟩ | ⟨hge, -, -⟩
    · exact hinv
    · omega
  refine ⟨s1, s2, hk1, hk2, ?_, ?_, ?_, hinv2⟩
  · unfold cycle
    simp only [hk1]
    exact hk2
  · funext i
    rw [hrc2, hrc1]
    by_cases e : i = x / PGSIZE
    · rw [e, Function.update_same, hc0]
    · rw [Function.update_noteq e, Function.update_noteq e]
  · rw [hhead2]
    exact h.1.1.symm

theorem Inv.cycles_ok {L : Layout} {x : Nat} {xs : List Nat} :
    ∀ (M : Nat) {s : Kmem}, Inv L s (x :: xs) →
      ∃ sM, cycles L M s = .ok sM ∧ sM.ref_count = s.ref_count ∧
        sM.freelist = s.freelist ∧ Inv L sM (x :: xs)
  | 0, s, h => ⟨s, rfl, rfl, rfl, h⟩
  | M + 1, s, h => by
    obtain ⟨s1, s2, -, -, hc, hrc, hhd, hinv⟩ := h.cycle_ok
    obtain ⟨sM, hcM, hrcM, hhdM, hinvM⟩ := Inv.cycles_ok M hinv
    refine ⟨sM, ?_, hrcM.trans hrc, hhdM.trans hhd, hinvM⟩
    unfold cycles
    simp only [hc]
    exact hcM

/-- C19: in a state reached after `kinit` whose free list is the non-empty
sequence `x :: xs`, `kalloc` immediately followed by `kfree` of the returned
frame restores the count table, the free-list head and the free list `x :: xs`;
hence after any number `M` of such cycles the free list is still `x :: xs` (same
length) and the count table, and so its sum, is unchanged. -/
theorem C19_cycles_restore (L : Layout) (m : Nat → Nat) (s0 s : Kmem) (cs : List Call)
    (x : Nat) (xs : List Nat) (hinit : kinit L (boot m) = .ok s0)
    (hrun : run L s0 cs = .ok s) (hfl : FreeList s.mem s.freelist (x :: xs)) :
    (∃ s1 s2, kalloc L s = .ok (x, s1) ∧ kfree L s1 x = .ok s2 ∧
      s2.ref_count = s.ref_count ∧ s2.freelist = s.freelist ∧
      FreeList s2.mem s2.freelist (x :: xs)) ∧
    (∀ M, ∃ sM, cycles L M s = .ok sM ∧ sM.ref_count = s.ref_count ∧
      FreeList sM.mem sM.freelist (x :: xs) ∧
      (∀ l, FreeList sM.mem sM.freelist l → l.length = (x :: xs).length) ∧
      countSum L sM = countSum L s) := by
  obtain ⟨l, hinv⟩ := Inv.run_ok (kinit_inv L m s0 hinit) hrun
  have e : x :: xs = l := FreeList.unique hfl hinv.1
  subst e
  constructor
  · obtain ⟨s1, s2, hk1, hk2, -, hrc, hhd, hinv2⟩ := hinv.cycle_ok
    exact ⟨s1, s2, hk1, hk2, hrc, hhd, hinv2.1⟩
  · intro M
    obtain ⟨sM, hc, hrc, -, hinvM⟩ := Inv.cycles_ok M hinv
    refine ⟨sM, hc, hrc, hinvM.1, ?_, ?_⟩
    · intro l hl
      rw [FreeList.unique hl hinvM.1]
    · unfold countSum
      rw [hrc]

theorem C19_cycles_restore_witness :
    ∃ s0, kinit exLayout (boot zeroMem) = .ok s0 ∧
      (∃ s1 s2, kalloc exLayout s0 = .ok (16384, s1) ∧ kfree exLayout s1 16384 = .ok s2 ∧
        s2.ref_count = s0.ref_count ∧ s2.freelist = s0.freelist ∧
        FreeList s2.mem s2.freelist (16384 :: [12288, 8192])) ∧
      (∀ M, ∃ sM, cycles exLayout M s0 = .ok sM ∧ sM.ref_count = s0.ref_count ∧
        FreeList sM.mem sM.freelist (16384 :: [12288, 8192]) ∧
        (∀ l, FreeList sM.mem sM.freelist l → l.length = (16384 :: [12288, 8192]).length) ∧
        countSum exLayout sM = countSum exLayout s0) := by
  obtain ⟨s0, h0, -, hfl⟩ := kinit_spec exLayout zeroMem
  rw [frames_exLayout] at hfl
  exact ⟨s0, h0, C19_cycles_restore exLayout zeroMem s0 s0 [] 16384 [12288, 8192] h0 rfl hfl⟩

/-! ## Bounds of the table accesses -/

theorem kfree_in_bounds (L : Layout) (st : Kmem) (pa : Nat) (hal : L.PHYSTOP % PGSIZE = 0) :
    kfree L st pa ≠ .error .outOfBounds := by
  by_cases hm : Manageable L pa
  · have hi : pa / PGSIZE < L.PHYSTOP / PGSIZE := by
      unfold Manageable PGSIZE at hm
      unfold PGSIZE at hal ⊢
      omega
    rw [kfree_of_index L st pa hm hi]
    split
    · simp
    · split <;> simp
  · have hc : pa % PGSIZE ≠ 0 ∨ pa < L.kend ∨ pa ≥ L.PHYSTOP := by
      unfold Manageable at hm
      by_contra hcon
      apply hm
      refine ⟨?_, ?_, ?_⟩
      · by_contra h0; exact hcon (Or.inl h0)
      · by_contra h0; exact hcon (Or.inr (Or.inl (by omega)))
      · by_contra h0; exact hcon (Or.inr (Or.inr (by omega)))
    unfold kfree
    rw [if_pos hc]
    simp

theorem kalloc_in_bounds (L : Layout) (st : Kmem) (hal : L.PHYSTOP % PGSIZE = 0)
    (hhead : st.freelist < L.PHYSTOP) : kalloc L st ≠ .error .outOfBounds := by
  by_cases hr : st.freelist = 0
  · rw [kalloc_empty L st hr]; simp
  · have hi : st.freelist / PGSIZE < L.PHYSTOP / PGSIZE := by
      unfold PGSIZE at hal ⊢
      omega
    rw [kalloc_of_index L st hr hi]
    split <;> simp

theorem increment_page_ref_in_bounds (L : Layout) (st : Kmem) (pa : Nat)
    (hal : L.PHYSTOP % PGSIZE = 0) (hne : pa ≠ L.PHYSTOP) :
    increment_page_ref L st pa ≠ .error .outOfBounds := by
  by_cases hp : pa > L.PHYSTOP
  · unfold increment_page_ref
    simp only
    rw [if_pos hp]
    simp
  · have hi : pa / PGSIZE < L.PHYSTOP / PGSIZE := by
      unfold PGSIZE at hal ⊢
      omega
    rw [increment_page_ref_of_index L st pa (by omega) hi]
    split
    · simp
    · split <;> simp

theorem freerangeLoop_in_bounds (L : Layout) (hal : L.PHYSTOP % PGSIZE = 0) :
    ∀ (n p : Nat) (st : Kmem), L.PHYSTOP - p = n →
      freerangeLoop L L.PHYSTOP p st ≠ .error .outOfBounds := by
  intro n
  induction n using Nat.strong_induction_on with
  | _ n ih =>
    intro p st hn
    rw [freerangeLoop]
    by_cases hle : p + PGSIZE ≤ L.PHYSTOP
    · have hidx : p / PGSIZE < L.PHYSTOP / PGSIZE := by
        unfold PGSIZE at hle ⊢
        omega
      rw [if_pos hle, if_pos hidx]
      simp only
      split
      · rename_i e hk
        intro h
        have he : e = Fault.outOfBounds := Except.error.inj h
        rw [he] at hk
        exact kfree_in_bounds L _ p hal hk
      · rename_i t hk
        exact ih (L.PHYSTOP - (p + PGSIZE)) (by unfold PGSIZE at hle ⊢; omega) (p + PGSIZE) t rfl
    · rw [if_neg hle]
      simp

theorem kinit_in_bounds (L : Layout) (st : Kmem) (hal : L.PHYSTOP % PGSIZE = 0) :
    kinit L st ≠ .error .outOfBounds :=
  freerangeLoop_in_bounds L hal _ (PGROUNDUP L.kend) st rfl

/-- C20 (behaviour of the code): with `PHYSTOP` a multiple of 4096, the call
`increment_page_ref(PHYSTOP)` passes the range test and accesses the table at
index `PHYSTOP / 4096`, one past its last entry, in every state. -/
theorem C20_increment_page_ref_out_of_bounds :
    exLayout.PHYSTOP % PGSIZE = 0 ∧
      ∀ st, increment_page_ref exLayout st exLayout.PHYSTOP = .error .outOfBounds :=
  ⟨by decide, fun st => increment_page_ref_at_phystop exLayout st⟩

end Kalloc
